import Mathlib

/-!
Verification of the Sudoku puzzle generator (`src/sudokuPuzzles.c`).

The C program works on a `SIZE × SIZE` array of `int` (`SIZE` a macro, a
perfect square).  We embed boards as `List (List Nat)` in row-major order
(`board[y][x]`), with the board order `n` (the macro `SIZE`) an explicit
parameter, `EMPTY = 0`, and reads through `getD` with default `0` (C reads
are always in bounds under the `dims` well-formedness predicate below).
The process-wide `rand()` stream is modelled as an explicit list of raw
draws threaded through the functions that consume randomness.
-/

namespace Sudoku

/-- A Sudoku board: rows of cell values, row-major (`board[y][x]`). -/
abbrev Board := List (List Nat)

/-- Read `board[y][x]` (0 when out of range; C code never reads out of range
on a well-formed board). -/
def cell (b : Board) (x y : Nat) : Nat := (b.getD y []).getD x 0

/-- Write `board[y][x] = v` (no-op when out of range, like `List.set`). -/
def setCell (b : Board) (x y v : Nat) : Board := b.set y ((b.getD y []).set x v)

/-- The board is an `n × n` matrix, as the C array `int board[SIZE][SIZE]` is. -/
def dims (n : Nat) (b : Board) : Prop := b.length = n ∧ ∀ r ∈ b, r.length = n

instance (n : Nat) (b : Board) : Decidable (dims n b) := by
  unfold dims; infer_instance

/-- All coordinates `(x, y)` of the `n × n` board window. -/
def window (n : Nat) : List (Nat × Nat) :=
  (List.range n).flatMap (fun y => (List.range n).map (fun x => (x, y)))

/-- Number of `EMPTY` cells in the `n × n` window. -/
def emptyCount (n : Nat) (b : Board) : Nat :=
  (window n).countP (fun p => cell b p.1 p.2 == 0)

/-- The values of row `y` in scan order (what the row loop of
`permittedValue` reads). -/
def rowVals (n : Nat) (b : Board) (y : Nat) : List Nat :=
  (List.range n).map (fun x => cell b x y)

/-- The values of column `x` in scan order. -/
def colVals (n : Nat) (b : Board) (x : Nat) : List Nat :=
  (List.range n).map (fun y => cell b x y)

/-- Floor square root, computed by exhaustive count so the kernel can
evaluate it (this models the C cast `(int)sqrt(SIZE)`, exact for the
supported orders): `squareSize n` counts the positive `i ≤ n` with
`i * i ≤ n`, which is the floor square root of `n`. -/
def squareSize (n : Nat) : Nat :=
  (List.range (n + 1)).countP (fun i => decide (0 < i) && decide (i * i ≤ n))

theorem squareSize_pos {n : Nat} (hn : 0 < n) : 0 < squareSize n := by
  unfold squareSize
  rw [List.countP_pos_iff]
  refine ⟨1, List.mem_range.2 (by omega), ?_⟩
  simp only [Bool.and_eq_true, decide_eq_true_eq]
  omega

/-- Coordinates of the `√n × √n` sub-square containing `(x, y)`, in the scan
order of `permittedValue` (rows `yMin..yMax` outer, columns inner). -/
def boxPositions (n x y : Nat) : List (Nat × Nat) :=
  (List.range (squareSize n)).flatMap (fun i =>
    (List.range (squareSize n)).map (fun j =>
      (x / squareSize n * squareSize n + j, y / squareSize n * squareSize n + i)))

/-- The values of the sub-square containing `(x, y)`, in scan order. -/
def boxVals (n : Nat) (b : Board) (x y : Nat) : List Nat :=
  (boxPositions n x y).map (fun p => cell b p.1 p.2)

/-- Spec (section 3) validity of one line: "nonzero cell values are pairwise
distinct". -/
def listValid (l : List Nat) : Prop :=
  l.Pairwise (fun a b => a ≠ 0 → b ≠ 0 → a ≠ b)

instance (l : List Nat) : Decidable (listValid l) := by
  unfold listValid; infer_instance

/-- Spec (section 3) board validity: every row, column and sub-square has
pairwise distinct nonzero values.  (Quantifying the sub-squares by a member
cell covers every sub-square.) -/
def validBoard (n : Nat) (b : Board) : Prop :=
  (∀ y < n, listValid (rowVals n b y)) ∧
  (∀ x < n, listValid (colVals n b x)) ∧
  (∀ x < n, ∀ y < n, listValid (boxVals n b x y))

instance (n : Nat) (b : Board) : Decidable (validBoard n b) := by
  unfold validBoard; infer_instance

/-- Every cell of the window holds `EMPTY` or a value in `[1, n]`
(data-model invariant of the spec, section 3). -/
def inRange (n : Nat) (b : Board) : Prop := ∀ y < n, ∀ x < n, cell b x y ≤ n

instance (n : Nat) (b : Board) : Decidable (inRange n b) := by
  unfold inRange; infer_instance

/-- No `EMPTY` cell in the window. -/
def complete (n : Nat) (b : Board) : Prop := ∀ y < n, ∀ x < n, cell b x y ≠ 0

instance (n : Nat) (b : Board) : Decidable (complete n b) := by
  unfold complete; infer_instance

/-- `c` agrees with `b` on every filled cell of `b`. -/
def extendsB (n : Nat) (b c : Board) : Prop :=
  ∀ y < n, ∀ x < n, cell b x y ≠ 0 → cell c x y = cell b x y

instance (n : Nat) (b c : Board) : Decidable (extendsB n b c) := by
  unfold extendsB; infer_instance

/-- `c` is a complete valid board obtainable from `b` by filling its empty
cells (a "Solution" reachable from `b`, spec sections 3 and 4.5). -/
def isCompletion (n : Nat) (b c : Board) : Prop :=
  dims n c ∧ inRange n c ∧ complete n c ∧ extendsB n b c ∧ validBoard n c

instance (n : Nat) (b c : Board) : Decidable (isCompletion n b c) := by
  unfold isCompletion; infer_instance

/- ## Generic list helpers -/

theorem set_getD_self {α : Type} (l : List α) (i : Nat) (d : α) :
    l.set i (l.getD i d) = l := by
  induction l generalizing i with
  | nil => simp
  | cons a t ih =>
    cases i with
    | zero => simp
    | succ j => simpa using ih j

theorem getD_set {α : Type} (l : List α) (i j : Nat) (a d : α) :
    (l.set i a).getD j d =
      if i = j ∧ i < l.length then a else l.getD j d := by
  rw [List.getD_eq_getElem?_getD, List.getD_eq_getElem?_getD, List.getElem?_set]
  by_cases h : i = j
  · subst h
    by_cases hl : i < l.length <;> simp [hl, List.getElem?_eq_none, Nat.le_of_not_lt]
  · simp [h]

theorem getD_set_ne {α : Type} (l : List α) {i j : Nat} (a d : α) (h : i ≠ j) :
    (l.set i a).getD j d = l.getD j d := by
  rw [getD_set]; simp [h]

/-- Two distinct members of a duplicate-free list form a two-element sublist
in one of the two orders. -/
theorem sublist_pair_of_nodup {α : Type} {l : List α} {a b : α}
    (hl : l.Nodup) (ha : a ∈ l) (hb : b ∈ l) (hab : a ≠ b) :
    [a, b].Sublist l ∨ [b, a].Sublist l := by
  induction l with
  | nil => simp at ha
  | cons c t ih =>
    rcases List.nodup_cons.1 hl with ⟨hc, ht⟩
    rcases List.mem_cons.1 ha with rfl | ha'
    · have hb' : b ∈ t := by
        rcases List.mem_cons.1 hb with rfl | h
        · exact absurd rfl hab
        · exact h
      exact Or.inl (List.cons_sublist_cons.2 (List.singleton_sublist.2 hb'))
    · rcases List.mem_cons.1 hb with rfl | hb'
      · exact Or.inr (List.cons_sublist_cons.2 (List.singleton_sublist.2 ha'))
      · rcases ih ht ha' hb' with h | h
        · exact Or.inl (h.cons c)
        · exact Or.inr (h.cons c)

/-- Pairwise distinctness of nonzero values of `ps.map f`, unfolded to a
statement about the members of a duplicate-free index list `ps`. -/
theorem listValid_map_iff {α : Type} {ps : List α} (hps : ps.Nodup) (f : α → Nat) :
    listValid (ps.map f) ↔
      ∀ p ∈ ps, ∀ q ∈ ps, p ≠ q → f p ≠ 0 → f q ≠ 0 → f p ≠ f q := by
  unfold listValid
  rw [List.pairwise_map]
  constructor
  · intro h p hp q hq hpq
    rcases sublist_pair_of_nodup hps hp hq hpq with hs | hs
    · exact List.pairwise_iff_forall_sublist.1 h hs
    · intro h1 h2 hne
      exact List.pairwise_iff_forall_sublist.1 h hs h2 h1 hne.symm
  · intro h
    refine List.pairwise_iff_forall_sublist.2 ?_
    intro p q hs
    have hp : p ∈ ps := hs.subset (by simp)
    have hq : q ∈ ps := hs.subset (by simp)
    have hpq : p ≠ q := by
      intro hEq
      subst hEq
      have : [p, p].Nodup := hs.nodup hps
      simp at this
    exact h p hp q hq hpq

theorem countP_congr_update {α : Type} [DecidableEq α] {l : List α}
    (hl : l.Nodup) {p0 : α} (hp0 : p0 ∈ l) (f g : α → Bool)
    (hsame : ∀ q ∈ l, q ≠ p0 → f q = g q) (hf : f p0 = true) (hg : g p0 = false) :
    l.countP f = l.countP g + 1 := by
  induction l with
  | nil => simp at hp0
  | cons a t ih =>
    rcases List.nodup_cons.1 hl with ⟨haT, htT⟩
    rcases List.mem_cons.1 hp0 with rfl | hp0'
    · have ht : ∀ q ∈ t, f q = g q := by
        intro q hq
        exact hsame q (List.mem_cons_of_mem _ hq) (fun hEq => haT (hEq ▸ hq))
      rw [List.countP_cons, List.countP_cons, hf, hg]
      have : t.countP f = t.countP g := List.countP_congr (fun q hq => by rw [ht q hq])
      simp [this]
    · have ha : f a = g a := hsame a (List.mem_cons_self _ _)
        (fun hEq => haT (hEq ▸ hp0'))
      rw [List.countP_cons, List.countP_cons, ha]
      have := ih htT hp0' (fun q hq => hsame q (List.mem_cons_of_mem _ hq))
      omega

/- ## Window membership and basic facts -/

theorem mem_window {n : Nat} {p : Nat × Nat} :
    p ∈ window n ↔ p.1 < n ∧ p.2 < n := by
  cases p with
  | mk x y =>
    simp only [window, List.mem_flatMap, List.mem_map, List.mem_range]
    constructor
    · rintro ⟨y', hy', x', hx', hEq⟩
      cases hEq; exact ⟨hx', hy'⟩
    · rintro ⟨hx, hy⟩
      exact ⟨y, hy, x, hx, rfl⟩

theorem nodup_window (n : Nat) : (window n).Nodup := by
  unfold window
  refine List.nodup_flatMap.2 ⟨?_, ?_⟩
  · intro y _
    exact (List.nodup_range n).map (fun a b h => by injection h)
  · refine (List.nodup_range n).imp ?_
    intro y1 y2 hne
    simp only [Function.onFun, List.Disjoint, List.mem_map, List.mem_range]
    rintro p ⟨x1, _, rfl⟩ ⟨x2, _, hEq⟩
    injection hEq with h1 h2
    exact hne h2.symm

theorem length_window (n : Nat) : (window n).length = n * n := by
  unfold window
  rw [List.length_flatMap]
  have : List.map (List.length ∘ fun y => (List.range n).map (fun x => (x, y)))
      (List.range n) = List.map (fun _ => n) (List.range n) := by
    apply List.map_congr_left
    intro y _
    simp [Function.comp]
  rw [this, List.map_const', List.sum_replicate, List.length_range, smul_eq_mul]

theorem emptyCount_le (n : Nat) (b : Board) : emptyCount n b ≤ n * n := by
  calc emptyCount n b ≤ (window n).length := List.countP_le_length _
    _ = n * n := length_window n

/- ## Reading and writing cells -/

theorem row_length {n : Nat} {b : Board} (hd : dims n b) {y : Nat} (hy : y < n) :
    (b.getD y []).length = n := by
  have hyl : y < b.length := by rw [hd.1]; exact hy
  rw [List.getD_eq_getElem?_getD, List.getElem?_eq_getElem hyl]
  exact hd.2 _ (List.getElem_mem hyl)

theorem dims_setCell {n : Nat} {b : Board} (hd : dims n b) (x y v : Nat) :
    dims n (setCell b x y v) := by
  by_cases hyl : y < b.length
  · refine ⟨by rw [setCell, List.length_set, hd.1], ?_⟩
    intro r hr
    rcases List.mem_or_eq_of_mem_set hr with hr' | rfl
    · exact hd.2 r hr'
    · rw [List.length_set]
      exact row_length hd (by rw [← hd.1]; exact hyl)
  · rw [setCell, List.set_eq_of_length_le (Nat.le_of_not_lt hyl)]
    exact hd

theorem cell_setCell_ne (b : Board) {x y x' y' : Nat} (v : Nat)
    (h : ¬(x' = x ∧ y' = y)) :
    cell (setCell b x y v) x' y' = cell b x' y' := by
  unfold cell setCell
  by_cases hy : y = y'
  · subst hy
    have hx : x ≠ x' := fun hEq => h ⟨hEq.symm, rfl⟩
    rw [getD_set]
    by_cases hyl : y < b.length
    · rw [if_pos ⟨rfl, hyl⟩]
      exact getD_set_ne _ _ _ hx
    · rw [if_neg (fun hand => hyl hand.2)]
  · rw [getD_set_ne _ _ _ hy]

theorem cell_setCell_eq {n : Nat} {b : Board} (hd : dims n b) {x y : Nat}
    (hx : x < n) (hy : y < n) (v : Nat) :
    cell (setCell b x y v) x y = v := by
  unfold cell setCell
  have hyl : y < b.length := by rw [hd.1]; exact hy
  rw [getD_set, if_pos ⟨rfl, hyl⟩, getD_set,
    if_pos ⟨rfl, by rw [row_length hd hy]; exact hx⟩]

theorem setCell_cell_self (b : Board) (x y : Nat) :
    setCell b x y (cell b x y) = b := by
  unfold setCell cell
  rw [set_getD_self, set_getD_self]

theorem setCell_zero_self {b : Board} {x y : Nat} (h : cell b x y = 0) :
    setCell b x y 0 = b := by
  rw [← h, setCell_cell_self]

theorem setCell_setCell (b : Board) (x y v w : Nat) :
    setCell (setCell b x y v) x y w = setCell b x y w := by
  unfold setCell
  by_cases hyl : y < b.length
  · rw [List.set_set]
    congr 1
    rw [getD_set, if_pos ⟨rfl, hyl⟩, List.set_set]
  · have h1 : b.set y ((b.getD y []).set x v) = b :=
      List.set_eq_of_length_le (Nat.le_of_not_lt hyl)
    rw [h1]

/-- Undoing a trial write: clearing a cell and restoring its recorded value
recovers the original board (the restoration step of `generatePuzzle`). -/
theorem setCell_restore (b : Board) (x y : Nat) :
    setCell (setCell b x y 0) x y (cell b x y) = b := by
  rw [setCell_setCell, setCell_cell_self]

theorem emptyCount_set_fill {n : Nat} {b : Board} {x y v : Nat} (hd : dims n b)
    (hx : x < n) (hy : y < n) (h0 : cell b x y = 0) (hv : v ≠ 0) :
    emptyCount n b = emptyCount n (setCell b x y v) + 1 := by
  unfold emptyCount
  refine countP_congr_update (nodup_window n) (show (x, y) ∈ window n from mem_window.2 ⟨hx, hy⟩) _ _ ?_ ?_ ?_
  · intro q hq hne
    show (cell b q.1 q.2 == 0) = (cell (setCell b x y v) q.1 q.2 == 0)
    rw [cell_setCell_ne]
    intro hEq
    exact hne (by cases q; simp_all)
  · simp [h0]
  · simp [cell_setCell_eq hd hx hy, hv]

theorem emptyCount_set_clear {n : Nat} {b : Board} {x y : Nat} (hd : dims n b)
    (hx : x < n) (hy : y < n) (h0 : cell b x y ≠ 0) :
    emptyCount n (setCell b x y 0) = emptyCount n b + 1 := by
  unfold emptyCount
  refine countP_congr_update (nodup_window n) (show (x, y) ∈ window n from mem_window.2 ⟨hx, hy⟩) _ _ ?_ ?_ ?_
  · intro q hq hne
    show (cell (setCell b x y 0) q.1 q.2 == 0) = (cell b q.1 q.2 == 0)
    rw [cell_setCell_ne]
    intro hEq
    exact hne (by cases q; simp_all)
  · simp [cell_setCell_eq hd hx hy]
  · simp [h0]

/- ## Candidate evaluation: `permittedValue` and `getValidIntegers` -/

/-- C `permittedValue` (src lines 428-473): the caller hands in an all-`FALSE`
array of `SIZE + 1` flags; the function sets indices `1..SIZE` to `TRUE` and
index `EMPTY = 0` to `FALSE`, then scans the row, the column, and the
sub-square of `(xPos, yPos)`, clearing the flag at each scanned value.
`boxPositions` lists the sub-square cells in the same nested scan order. -/
def permittedValue (n : Nat) (b : Board) (x y : Nat) : List Bool :=
  let init : List Bool := false :: List.replicate n true
  let afterRow := (List.range n).foldl (fun p xv => p.set (cell b xv y) false) init
  let afterCol := (List.range n).foldl (fun p yv => p.set (cell b x yv) false) afterRow
  (boxPositions n x y).foldl (fun p q => p.set (cell b q.1 q.2) false) afterCol

/-- C `getValidIntegers` (src lines 392-414): scan `permitted[1..SIZE]` in
ascending order and collect every index whose flag is still `TRUE`.  The C
function writes the collected values into the prefix of `validIntegers` and
returns how many there are; we return the collected list itself (its length
is the C return value). -/
def getValidIntegers (n : Nat) (b : Board) (x y : Nat) : List Nat :=
  let permitted := permittedValue n b x y
  ((List.range n).map (fun k => k + 1)).filter (fun v => permitted.getD v false)

theorem foldl_set_false_getD {α : Type} (xs : List α) (f : α → Nat)
    (p : List Bool) (v : Nat) :
    (xs.foldl (fun acc c => acc.set (f c) false) p).getD v false
      = (p.getD v false && xs.all (fun c => !(f c == v))) := by
  induction xs generalizing p with
  | nil => simp
  | cons c t ih =>
    rw [List.foldl_cons, ih, List.all_cons]
    have hstep : (p.set (f c) false).getD v false
        = (p.getD v false && !(f c == v)) := by
      by_cases h : f c = v
      · subst h
        rw [getD_set]
        by_cases hl : f c < p.length
        · simp [hl]
        · rw [if_neg (fun hand => hl hand.2), List.getD_eq_default _ _ (Nat.le_of_not_lt hl)]
          simp
      · rw [getD_set_ne _ _ _ h]
        simp [h]
    rw [hstep, Bool.and_assoc]

theorem permitted_init_getD (n v : Nat) :
    (false :: List.replicate n true).getD v false = decide (1 ≤ v ∧ v ≤ n) := by
  cases v with
  | zero => simp
  | succ k =>
    rw [List.getD_cons_succ, List.getD_eq_getElem?_getD, List.getElem?_replicate]
    by_cases h : k < n
    · simp only [if_pos h, Option.getD_some]
      have : 1 ≤ k + 1 ∧ k + 1 ≤ n := by omega
      simp [this]
    · simp only [if_neg h, Option.getD_none]
      have : ¬(1 ≤ k + 1 ∧ k + 1 ≤ n) := by omega
      exact (decide_eq_false this).symm

theorem permittedValue_getD (n : Nat) (b : Board) (x y v : Nat) :
    (permittedValue n b x y).getD v false =
      (decide (1 ≤ v ∧ v ≤ n)
        && (List.range n).all (fun xv => !(cell b xv y == v))
        && (List.range n).all (fun yv => !(cell b x yv == v))
        && (boxPositions n x y).all (fun q => !(cell b q.1 q.2 == v))) := by
  unfold permittedValue
  rw [foldl_set_false_getD, foldl_set_false_getD, foldl_set_false_getD,
    permitted_init_getD]

theorem mem_rowVals {n : Nat} {b : Board} {y v : Nat} :
    v ∈ rowVals n b y ↔ ∃ x, x < n ∧ cell b x y = v := by
  simp [rowVals, List.mem_map, List.mem_range]

theorem mem_colVals {n : Nat} {b : Board} {x v : Nat} :
    v ∈ colVals n b x ↔ ∃ y, y < n ∧ cell b x y = v := by
  simp [colVals, List.mem_map, List.mem_range]

theorem mem_boxVals {n : Nat} {b : Board} {x y v : Nat} :
    v ∈ boxVals n b x y ↔ ∃ q ∈ boxPositions n x y, cell b q.1 q.2 = v := by
  simp [boxVals, List.mem_map]

/-- Candidate characterization: the list built by `getValidIntegers` holds
exactly the values in `[1, n]` that occur nowhere in the scanned row, column
and sub-square. -/
theorem mem_getValidIntegers {n : Nat} {b : Board} {x y v : Nat} :
    v ∈ getValidIntegers n b x y ↔
      1 ≤ v ∧ v ≤ n ∧ v ∉ rowVals n b y ∧ v ∉ colVals n b x ∧
        v ∉ boxVals n b x y := by
  unfold getValidIntegers
  rw [List.mem_filter, permittedValue_getD]
  constructor
  · rintro ⟨hmem, hflag⟩
    simp only [Bool.and_eq_true, decide_eq_true_eq, List.all_eq_true,
      Bool.not_eq_eq_eq_not, Bool.not_true, beq_eq_false_iff_ne, ne_eq] at hflag
    rcases hflag with ⟨⟨⟨hrange, hrow⟩, hcol⟩, hbox⟩
    refine ⟨hrange.1, hrange.2, ?_, ?_, ?_⟩
    · rw [mem_rowVals]
      rintro ⟨x', hx', hEq⟩
      exact hrow x' (List.mem_range.2 hx') hEq
    · rw [mem_colVals]
      rintro ⟨y', hy', hEq⟩
      exact hcol y' (List.mem_range.2 hy') hEq
    · rw [mem_boxVals]
      rintro ⟨q, hq, hEq⟩
      exact hbox q hq hEq
  · rintro ⟨h1, h2, hrow, hcol, hbox⟩
    constructor
    · simp only [List.mem_map, List.mem_range]
      exact ⟨v - 1, by omega, by omega⟩
    · simp only [Bool.and_eq_true, decide_eq_true_eq, List.all_eq_true,
        Bool.not_eq_eq_eq_not, Bool.not_true, beq_eq_false_iff_ne, ne_eq]
      refine ⟨⟨⟨⟨h1, h2⟩, ?_⟩, ?_⟩, ?_⟩
      · intro x' hx' hEq
        exact hrow (mem_rowVals.2 ⟨x', List.mem_range.1 hx', hEq⟩)
      · intro y' hy' hEq
        exact hcol (mem_colVals.2 ⟨y', List.mem_range.1 hy', hEq⟩)
      · intro q hq hEq
        exact hbox (mem_boxVals.2 ⟨q, hq, hEq⟩)

theorem nodup_getValidIntegers (n : Nat) (b : Board) (x y : Nat) :
    (getValidIntegers n b x y).Nodup := by
  unfold getValidIntegers
  exact ((List.nodup_range n).map (fun a b h => by omega)).filter _

theorem getValidIntegers_pos {n : Nat} {b : Board} {x y v : Nat}
    (h : v ∈ getValidIntegers n b x y) : 1 ≤ v ∧ v ≤ n :=
  ⟨(mem_getValidIntegers.1 h).1, (mem_getValidIntegers.1 h).2.1⟩

/- ## Sub-square positions -/

theorem mem_boxPositions {n x y : Nat} {p : Nat × Nat} :
    p ∈ boxPositions n x y ↔
      ∃ i, i < squareSize n ∧ ∃ j, j < squareSize n ∧
        p = (x / squareSize n * squareSize n + j, y / squareSize n * squareSize n + i) := by
  simp only [boxPositions, List.mem_flatMap, List.mem_map, List.mem_range]
  constructor
  · rintro ⟨i, hi, j, hj, rfl⟩
    exact ⟨i, hi, j, hj, rfl⟩
  · rintro ⟨i, hi, j, hj, rfl⟩
    exact ⟨i, hi, j, hj, rfl⟩

theorem nodup_boxPositions (n x y : Nat) : (boxPositions n x y).Nodup := by
  unfold boxPositions
  refine List.nodup_flatMap.2 ⟨?_, ?_⟩
  · intro i _
    exact (List.nodup_range _).map (fun a b h => by injection h with h1 h2; omega)
  · refine (List.nodup_range _).imp ?_
    intro i1 i2 hne
    simp only [Function.onFun, List.Disjoint, List.mem_map, List.mem_range]
    rintro p ⟨j1, _, rfl⟩ ⟨j2, _, hEq⟩
    injection hEq with h1 h2
    omega

theorem self_mem_boxPositions {n x y : Nat} (hs : 0 < squareSize n) :
    (x, y) ∈ boxPositions n x y := by
  rw [mem_boxPositions]
  refine ⟨y % squareSize n, Nat.mod_lt _ hs, x % squareSize n, Nat.mod_lt _ hs, ?_⟩
  have h1 : x / squareSize n * squareSize n + x % squareSize n = x := by
    rw [Nat.mul_comm]
    exact Nat.div_add_mod x (squareSize n)
  have h2 : y / squareSize n * squareSize n + y % squareSize n = y := by
    rw [Nat.mul_comm]
    exact Nat.div_add_mod y (squareSize n)
  rw [h1, h2]

theorem boxPositions_eq_of_mem {n x y x' y' : Nat} (hs : 0 < squareSize n)
    (h : (x', y') ∈ boxPositions n x y) :
    boxPositions n x' y' = boxPositions n x y := by
  rw [mem_boxPositions] at h
  obtain ⟨i, hi, j, hj, hEq⟩ := h
  have hx' : x' = x / squareSize n * squareSize n + j := congrArg Prod.fst hEq
  have hy' : y' = y / squareSize n * squareSize n + i := congrArg Prod.snd hEq
  have hdx : x' / squareSize n = x / squareSize n := by
    rw [hx', Nat.mul_comm (x / squareSize n) (squareSize n), Nat.mul_add_div hs,
      Nat.div_eq_of_lt hj, Nat.add_zero]
  have hdy : y' / squareSize n = y / squareSize n := by
    rw [hy', Nat.mul_comm (y / squareSize n) (squareSize n), Nat.mul_add_div hs,
      Nat.div_eq_of_lt hi, Nat.add_zero]
  unfold boxPositions
  rw [hdx, hdy]

/- ## The cell selector `nextEmpty` -/

/-- C `nextEmpty` (src lines 352-381): row-major scan (rows outer, columns
inner) for the first `EMPTY` cell; `none` when the board is complete. -/
def nextEmpty (n : Nat) (b : Board) : Option (Nat × Nat) :=
  (List.range n).findSome? (fun y =>
    ((List.range n).find? (fun x => cell b x y == 0)).map (fun x => (x, y)))

theorem nextEmpty_some {n : Nat} {b : Board} {x y : Nat}
    (h : nextEmpty n b = some (x, y)) :
    x < n ∧ y < n ∧ cell b x y = 0 := by
  unfold nextEmpty at h
  obtain ⟨y', hy', hmap⟩ := List.exists_of_findSome?_eq_some h
  cases hfind : (List.range n).find? (fun x' => cell b x' y' == 0) with
  | none => rw [hfind] at hmap; simp at hmap
  | some x' =>
    rw [hfind, Option.map_some'] at hmap
    injection hmap with hEq
    have hxx : x' = x := congrArg Prod.fst hEq
    have hyy : y' = y := congrArg Prod.snd hEq
    subst hxx
    subst hyy
    have hp := List.find?_some hfind
    have hmem := List.mem_of_find?_eq_some hfind
    exact ⟨List.mem_range.1 hmem, List.mem_range.1 hy', by simpa using hp⟩

theorem nextEmpty_none {n : Nat} {b : Board} (h : nextEmpty n b = none) :
    complete n b := by
  unfold nextEmpty at h
  intro y hy x hx
  have hy' := List.findSome?_eq_none_iff.1 h y (List.mem_range.2 hy)
  rw [Option.map_eq_none'] at hy'
  have := List.find?_eq_none.1 hy' x (List.mem_range.2 hx)
  simpa using this

theorem emptyCount_eq_zero_of_complete {n : Nat} {b : Board}
    (h : complete n b) : emptyCount n b = 0 := by
  unfold emptyCount
  rw [List.countP_eq_zero]
  intro p hp
  rcases mem_window.1 hp with ⟨h1, h2⟩
  simpa using h p.2 h2 p.1 h1

/- ## Any single engine write preserves validity -/

theorem rowVals_setCell_ne {n : Nat} (b : Board) {x y : Nat} (v : Nat)
    {y' : Nat} (hne : y' ≠ y) :
    rowVals n (setCell b x y v) y' = rowVals n b y' := by
  unfold rowVals
  apply List.map_congr_left
  intro x' _
  exact cell_setCell_ne b v (fun hand => hne hand.2)

theorem colVals_setCell_ne {n : Nat} (b : Board) {x y : Nat} (v : Nat)
    {x' : Nat} (hne : x' ≠ x) :
    colVals n (setCell b x y v) x' = colVals n b x' := by
  unfold colVals
  apply List.map_congr_left
  intro y' _
  exact cell_setCell_ne b v (fun hand => hne hand.1)

theorem boxVals_setCell_ne {n : Nat} (b : Board) {x y : Nat} (v : Nat)
    {x0 y0 : Nat} (hne : (x, y) ∉ boxPositions n x0 y0) :
    boxVals n (setCell b x y v) x0 y0 = boxVals n b x0 y0 := by
  unfold boxVals
  apply List.map_congr_left
  intro q hq
  refine cell_setCell_ne b v ?_
  rintro ⟨hq1, hq2⟩
  apply hne
  have : q = (x, y) := by
    cases q
    simp_all
  exact this ▸ hq

/-- A write to cell `(x, y)` of a value that conflicts with no cell of the
row, the column, or the sub-square of `(x, y)` (vacuously so for the `EMPTY`
value 0) keeps the board valid. -/
theorem update_valid {n : Nat} {b : Board} {x y v : Nat} (hd : dims n b)
    (hx : x < n) (hy : y < n)
    (hrow : v ≠ 0 → ∀ x' < n, cell b x' y ≠ v)
    (hcol : v ≠ 0 → ∀ y' < n, cell b x y' ≠ v)
    (hbox : v ≠ 0 → ∀ q ∈ boxPositions n x y, cell b q.1 q.2 ≠ v)
    (hv : validBoard n b) : validBoard n (setCell b x y v) := by
  obtain ⟨hvr, hvc, hvb⟩ := hv
  have hs : 0 < squareSize n := squareSize_pos (by omega)
  refine ⟨?_, ?_, ?_⟩
  · intro y' hy'
    by_cases hyy : y' = y
    · subst hyy
      have hold := hvr y' hy'
      unfold rowVals at hold ⊢
      rw [listValid_map_iff (List.nodup_range n)] at hold ⊢
      intro p hp q hq hpq hp0 hq0
      have hpn := List.mem_range.1 hp
      have hqn := List.mem_range.1 hq
      by_cases hpx : p = x
      · subst hpx
        have hqx : q ≠ p := fun hEq => hpq (hEq ▸ rfl)
        rw [cell_setCell_eq hd hx hy] at hp0 ⊢
        rw [cell_setCell_ne b v (fun hand => hqx hand.1)] at hq0 ⊢
        intro hEq
        exact hrow hp0 q hqn hEq.symm
      · by_cases hqx : q = x
        · subst hqx
          rw [cell_setCell_eq hd hx hy] at hq0 ⊢
          rw [cell_setCell_ne b v (fun hand => hpx hand.1)] at hp0 ⊢
          intro hEq
          exact hrow hq0 p hpn hEq
        · rw [cell_setCell_ne b v (fun hand => hpx hand.1)] at hp0 ⊢
          rw [cell_setCell_ne b v (fun hand => hqx hand.1)] at hq0 ⊢
          exact hold p hp q hq hpq hp0 hq0
    · rw [rowVals_setCell_ne b v hyy]
      exact hvr y' hy'
  · intro x' hx'
    by_cases hxx : x' = x
    · subst hxx
      have hold := hvc x' hx'
      unfold colVals at hold ⊢
      rw [listValid_map_iff (List.nodup_range n)] at hold ⊢
      intro p hp q hq hpq hp0 hq0
      have hpn := List.mem_range.1 hp
      have hqn := List.mem_range.1 hq
      by_cases hpy : p = y
      · subst hpy
        have hqy : q ≠ p := fun hEq => hpq (hEq ▸ rfl)
        rw [cell_setCell_eq hd hx hy] at hp0 ⊢
        rw [cell_setCell_ne b v (fun hand => hqy hand.2)] at hq0 ⊢
        intro hEq
        exact hcol hp0 q hqn hEq.symm
      · by_cases hqy : q = y
        · subst hqy
          rw [cell_setCell_eq hd hx hy] at hq0 ⊢
          rw [cell_setCell_ne b v (fun hand => hpy hand.2)] at hp0 ⊢
          intro hEq
          exact hcol hq0 p hpn hEq
        · rw [cell_setCell_ne b v (fun hand => hpy hand.2)] at hp0 ⊢
          rw [cell_setCell_ne b v (fun hand => hqy hand.2)] at hq0 ⊢
          exact hold p hp q hq hpq hp0 hq0
    · rw [colVals_setCell_ne b v hxx]
      exact hvc x' hx'
  · intro x0 hx0 y0 hy0
    by_cases hmem : (x, y) ∈ boxPositions n x0 y0
    · have hbeq : boxPositions n x0 y0 = boxPositions n x y :=
        (boxPositions_eq_of_mem hs hmem).symm
      have hold := hvb x hx y hy
      unfold boxVals at hold ⊢
      rw [hbeq]
      rw [listValid_map_iff (nodup_boxPositions n x y)] at hold ⊢
      rintro ⟨p1, p2⟩ hp ⟨q1, q2⟩ hq hpq hp0 hq0
      by_cases hpxy : p1 = x ∧ p2 = y
      · rcases hpxy with ⟨rfl, rfl⟩
        have hqxy : ¬(q1 = p1 ∧ q2 = p2) := by
          rintro ⟨rfl, rfl⟩
          exact hpq rfl
        rw [cell_setCell_eq hd hx hy] at hp0 ⊢
        rw [cell_setCell_ne b v hqxy] at hq0 ⊢
        intro hEq
        exact hbox hp0 (q1, q2) hq hEq.symm
      · by_cases hqxy : q1 = x ∧ q2 = y
        · rcases hqxy with ⟨rfl, rfl⟩
          rw [cell_setCell_eq hd hx hy] at hq0 ⊢
          rw [cell_setCell_ne b v hpxy] at hp0 ⊢
          intro hEq
          exact hbox hq0 (p1, p2) hp hEq
        · rw [cell_setCell_ne b v hpxy] at hp0 ⊢
          rw [cell_setCell_ne b v hqxy] at hq0 ⊢
          exact hold (p1, p2) hp (q1, q2) hq hpq hp0 hq0
    · rw [boxVals_setCell_ne b v hmem]
      exact hvb x0 hx0 y0 hy0

/-- Writing a value reported legal by `getValidIntegers` into the empty cell
it was computed for keeps the board valid. -/
theorem setCandidate_valid {n : Nat} {b : Board} {x y v : Nat} (hd : dims n b)
    (hx : x < n) (hy : y < n) (hmem : v ∈ getValidIntegers n b x y)
    (hv : validBoard n b) : validBoard n (setCell b x y v) := by
  obtain ⟨h1, h2, hrow, hcol, hbox⟩ := mem_getValidIntegers.1 hmem
  refine update_valid hd hx hy ?_ ?_ ?_ hv
  · intro _ x' hx' hEq
    exact hrow (mem_rowVals.2 ⟨x', hx', hEq⟩)
  · intro _ y' hy' hEq
    exact hcol (mem_colVals.2 ⟨y', hy', hEq⟩)
  · intro _ q hq hEq
    exact hbox (mem_boxVals.2 ⟨q, hq, hEq⟩)

/-- Clearing any cell keeps the board valid. -/
theorem clear_valid {n : Nat} {b : Board} {x y : Nat} (hd : dims n b)
    (hx : x < n) (hy : y < n) (hv : validBoard n b) :
    validBoard n (setCell b x y 0) :=
  update_valid hd hx hy (fun h => absurd rfl h) (fun h => absurd rfl h)
    (fun h => absurd rfl h) hv

theorem inRange_setCell {n : Nat} {b : Board} {x y v : Nat} (hd : dims n b)
    (hx : x < n) (hy : y < n) (hvn : v ≤ n) (hr : inRange n b) :
    inRange n (setCell b x y v) := by
  intro y' hy' x' hx'
  by_cases h : x' = x ∧ y' = y
  · rcases h with ⟨rfl, rfl⟩
    rw [cell_setCell_eq hd hx hy]
    exact hvn
  · rw [cell_setCell_ne b v h]
    exact hr y' hy' x' hx'

/- ## The solution counter `solveBoard` -/

/-- C `duplicateBoard` (src lines 259-266): copies all `SIZE × SIZE` values
of `read` into the destination array.  Since every destination cell is
overwritten, the result is the `n × n` copy of the window of `read`. -/
def duplicateBoard (n : Nat) (read : Board) : Board :=
  (List.range n).map (fun i => (List.range n).map (fun j => cell read j i))

/-- The candidate loop of `solveBoard` (src lines 322-332): for each value in
the list, write it into the branch cell, recurse (`rec` is the recursive
call), add the returned count to the running total, and reset the cell to
`EMPTY`.  The loop has no early exit. -/
def solveFold (x y : Nat) (rec : Board → Board → Nat × Board × Board) :
    List Nat → Nat × Board × Board → Nat × Board × Board
  | [], acc => acc
  | v :: vs, acc =>
    let r := rec (setCell acc.2.1 x y v) acc.2.2
    solveFold x y rec vs (acc.1 + r.1, setCell r.2.1 x y 0, r.2.2)

/-- C `solveBoard` (src lines 306-346), fuelled.  Returns (count, board,
solution).  At a leaf (no empty cell left) the local `totalSolutions` is
still `0`, so the C guard `totalSolutions == 0` holds at *every* leaf and the
board is copied into the output on every solution found; the `let total`
mirrors that local variable.  When the empty cell has no candidates
`solveFold` over `[]` returns the accumulator `(0, board, sol)`, exactly the
C dead-branch result.  (The global `backtrackCount` is observability-only,
spec section 9, and is not modelled.)  One unit of fuel is consumed per
recursion level; each level fills an empty cell, so `emptyCount + 1` fuel is
always enough and the out-of-fuel branch is unreachable from the wrapper
below. -/
def solveBoardF (n : Nat) : Nat → Board → Board → Nat × Board × Board
  | 0, b, sol => (0, b, sol)
  | fuel + 1, b, sol =>
    match nextEmpty n b with
    | some (x, y) =>
      solveFold x y (solveBoardF n fuel) (getValidIntegers n b x y) (0, b, sol)
    | none =>
      let total := 0
      (total + 1, b, if total = 0 then duplicateBoard n b else sol)

/-- C `solveBoard` entry: the C function is recursive without fuel; the
wrapper supplies fuel `n * n + 1`, which exceeds the recursion depth of any
run from an `n × n` board. -/
def solveBoard (n : Nat) (b sol : Board) : Nat × Board × Board :=
  solveBoardF n (n * n + 1) b sol

theorem solveFold_board {x y : Nat} {rec : Board → Board → Nat × Board × Board}
    (hrec : ∀ b' s', (rec b' s').2.1 = b') :
    ∀ (vs : List Nat) (cnt : Nat) (b sol : Board), cell b x y = 0 →
      (solveFold x y rec vs (cnt, b, sol)).2.1 = b := by
  intro vs
  induction vs with
  | nil => intro cnt b sol _; rfl
  | cons v vs ih =>
    intro cnt b sol h0
    show (solveFold x y rec vs
      (cnt + (rec (setCell b x y v) sol).1,
        setCell (rec (setCell b x y v) sol).2.1 x y 0,
        (rec (setCell b x y v) sol).2.2)).2.1 = b
    rw [hrec (setCell b x y v) sol, setCell_setCell, setCell_zero_self h0]
    exact ih _ _ _ h0

/-- Restoration: `solveBoardF` hands back its input board unchanged — every
trial write is undone before return, at every fuel level. -/
theorem solveBoardF_restores (n : Nat) :
    ∀ (fuel : Nat) (b sol : Board), (solveBoardF n fuel b sol).2.1 = b := by
  intro fuel
  induction fuel with
  | zero => intro b sol; rfl
  | succ fuel ih =>
    intro b sol
    cases h : nextEmpty n b with
    | none => simp [solveBoardF, h]
    | some p =>
      obtain ⟨x, y⟩ := p
      have h0 := (nextEmpty_some h).2.2
      have hred : solveBoardF n (fuel + 1) b sol
          = solveFold x y (solveBoardF n fuel) (getValidIntegers n b x y)
              (0, b, sol) := by
        simp [solveBoardF, h]
      rw [hred]
      exact solveFold_board (fun b' s' => ih b' s') _ 0 b sol h0

/- ## Counting completions (the spec-level quantity of section 4.5) -/

/-- All lists of length `k` whose elements are drawn from `vals`. -/
def allLists {α : Type} (vals : List α) : Nat → List (List α)
  | 0 => [[]]
  | k + 1 => vals.flatMap (fun v => (allLists vals k).map (fun t => v :: t))

/-- Spec-level enumeration of every `n × n` board with all entries in
`[1, n]`. -/
def allBoards (n : Nat) : List Board :=
  allLists (allLists (List.range' 1 n) n) n

/-- Modelled from the spec (section 4.5): the "distinct complete valid
boards reachable by filling remaining empty cells" of `b`, as a list. -/
def completionsList (n : Nat) (b : Board) : List Board :=
  (allBoards n).filter (fun c => decide (isCompletion n b c))

theorem mem_allLists {α : Type} {vals : List α} :
    ∀ {k : Nat} {l : List α},
      l ∈ allLists vals k ↔ l.length = k ∧ ∀ a ∈ l, a ∈ vals := by
  intro k
  induction k with
  | zero =>
    intro l
    constructor
    · intro h
      simp only [allLists, List.mem_singleton] at h
      subst h
      simp
    · rintro ⟨hl, _⟩
      simp only [allLists, List.mem_singleton]
      exact List.eq_nil_of_length_eq_zero hl
  | succ k ih =>
    intro l
    constructor
    · intro h
      simp only [allLists, List.mem_flatMap, List.mem_map] at h
      obtain ⟨v, hv, t, ht, rfl⟩ := h
      obtain ⟨htl, hta⟩ := ih.1 ht
      refine ⟨by simp [htl], ?_⟩
      intro a ha
      rcases List.mem_cons.1 ha with rfl | ha'
      · exact hv
      · exact hta a ha'
    · rintro ⟨hl, ha⟩
      cases l with
      | nil => simp at hl
      | cons v t =>
        simp only [allLists, List.mem_flatMap, List.mem_map]
        refine ⟨v, ha v (List.mem_cons_self _ _), t, ?_, rfl⟩
        refine ih.2 ⟨by simpa using hl, ?_⟩
        intro a ha'
        exact ha a (List.mem_cons_of_mem _ ha')

theorem nodup_allLists {α : Type} {vals : List α} (h : vals.Nodup) :
    ∀ k : Nat, (allLists vals k).Nodup := by
  intro k
  induction k with
  | zero => simp [allLists]
  | succ k ih =>
    refine List.nodup_flatMap.2 ⟨?_, ?_⟩
    · intro v _
      exact ih.map (fun t1 t2 hEq => by injection hEq)
    · refine h.imp ?_
      intro v1 v2 hne
      simp only [Function.onFun, List.Disjoint, List.mem_map]
      rintro l ⟨t1, _, rfl⟩ ⟨t2, _, hEq⟩
      injection hEq with h1 h2
      exact hne h1.symm

theorem mem_iff_getD {α : Type} (d : α) {l : List α} {a : α} :
    a ∈ l ↔ ∃ i, i < l.length ∧ l.getD i d = a := by
  rw [List.mem_iff_getElem]
  constructor
  · rintro ⟨i, h, rfl⟩
    exact ⟨i, h, List.getD_eq_getElem l d h⟩
  · rintro ⟨i, h, hEq⟩
    exact ⟨i, h, by rw [← List.getD_eq_getElem l d h]; exact hEq⟩

theorem ext_getD {α : Type} (d : α) {l1 l2 : List α} (hl : l1.length = l2.length)
    (h : ∀ i, i < l1.length → l1.getD i d = l2.getD i d) : l1 = l2 := by
  refine List.ext_getElem hl ?_
  intro i h1 h2
  have hi := h i h1
  rw [List.getD_eq_getElem l1 d h1, List.getD_eq_getElem l2 d h2] at hi
  exact hi

/-- A nonzero cell read lies inside the window when the board is `n × n`
(out-of-range `getD` reads give 0). -/
theorem cell_lt_of_ne_zero {n : Nat} {b : Board} {x y : Nat} (hd : dims n b)
    (h : cell b x y ≠ 0) : x < n ∧ y < n := by
  unfold cell at h
  by_cases hy : y < n
  · refine ⟨?_, hy⟩
    by_cases hx : x < n
    · exact hx
    · exfalso
      apply h
      apply List.getD_eq_default
      rw [row_length hd hy]
      omega
  · exfalso
    apply h
    have hrow : b.getD y [] = [] := by
      apply List.getD_eq_default
      rw [hd.1]
      omega
    rw [hrow]
    rfl

theorem mem_allBoards {n : Nat} {c : Board} :
    c ∈ allBoards n ↔
      dims n c ∧ ∀ y < n, ∀ x < n, 1 ≤ cell c x y ∧ cell c x y ≤ n := by
  unfold allBoards
  rw [mem_allLists]
  constructor
  · rintro ⟨hlen, hrows⟩
    have hdim : dims n c := ⟨hlen, fun r hr => (mem_allLists.1 (hrows r hr)).1⟩
    refine ⟨hdim, ?_⟩
    intro y hy x hx
    have hyl : y < c.length := by rw [hlen]; exact hy
    have hrmem : c.getD y [] ∈ c := (mem_iff_getD []).2 ⟨y, hyl, rfl⟩
    have hrl : (c.getD y []).length = n := (mem_allLists.1 (hrows _ hrmem)).1
    have hxl : x < (c.getD y []).length := by rw [hrl]; exact hx
    have hvmem : (c.getD y []).getD x 0 ∈ c.getD y [] :=
      (mem_iff_getD 0).2 ⟨x, hxl, rfl⟩
    have hin : (c.getD y []).getD x 0 ∈ List.range' 1 n :=
      (mem_allLists.1 (hrows _ hrmem)).2 _ hvmem
    have := List.mem_range'_1.1 hin
    unfold cell
    omega
  · rintro ⟨⟨hlen, hrowlen⟩, hcells⟩
    refine ⟨hlen, ?_⟩
    intro r hr
    obtain ⟨y, hyl, hEq⟩ := (mem_iff_getD ([] : List Nat)).1 hr
    refine mem_allLists.2 ⟨hrowlen r hr, ?_⟩
    intro a ha
    obtain ⟨x, hxl, hEq2⟩ := (mem_iff_getD 0).1 ha
    have hy : y < n := by rw [← hlen]; exact hyl
    have hx : x < n := by rw [← hrowlen r hr]; exact hxl
    have hc : cell c x y = a := by
      unfold cell
      rw [hEq, hEq2]
    have := hcells y hy x hx
    rw [hc] at this
    rw [List.mem_range'_1]
    omega

theorem nodup_allBoards (n : Nat) : (allBoards n).Nodup :=
  nodup_allLists (nodup_allLists (List.nodup_range' _ _) n) n

theorem mem_completionsList {n : Nat} {b c : Board} :
    c ∈ completionsList n b ↔ isCompletion n b c := by
  unfold completionsList
  rw [List.mem_filter]
  constructor
  · rintro ⟨_, h⟩
    exact of_decide_eq_true h
  · intro h
    refine ⟨?_, decide_eq_true h⟩
    obtain ⟨hd, hr, hc, _, _⟩ := h
    refine mem_allBoards.2 ⟨hd, ?_⟩
    intro y hy x hx
    exact ⟨Nat.one_le_iff_ne_zero.2 (hc y hy x hx), hr y hy x hx⟩

/-- The completions of `b`, as a finite set. -/
def completionsF (n : Nat) (b : Board) : Finset Board :=
  (completionsList n b).toFinset

/-- Modelled from the spec (section 4.5): the number of distinct complete
valid boards reachable from `b` by filling its empty cells. -/
def numCompletions (n : Nat) (b : Board) : Nat := (completionsF n b).card

theorem mem_completionsF {n : Nat} {b c : Board} :
    c ∈ completionsF n b ↔ isCompletion n b c := by
  rw [completionsF, List.mem_toFinset, mem_completionsList]

/-- Two `n × n` boards agreeing on the whole window are equal. -/
theorem board_ext {n : Nat} {b c : Board} (hb : dims n b) (hc : dims n c)
    (h : ∀ y < n, ∀ x < n, cell b x y = cell c x y) : b = c := by
  refine ext_getD ([] : List Nat) (by rw [hb.1, hc.1]) ?_
  intro y hyl
  have hy : y < n := by rw [← hb.1]; exact hyl
  refine ext_getD 0 (by rw [row_length hb hy, row_length hc hy]) ?_
  intro x hxl
  have hx : x < n := by rw [← row_length hb hy]; exact hxl
  exact h y hy x hx

/-- A complete valid in-range board is its own sole completion. -/
theorem completionsF_of_complete {n : Nat} {b : Board} (hd : dims n b)
    (hr : inRange n b) (hc : complete n b) (hv : validBoard n b) :
    completionsF n b = {b} := by
  refine Finset.eq_singleton_iff_unique_mem.2 ⟨?_, ?_⟩
  · exact mem_completionsF.2 ⟨hd, hr, hc, fun y hy x hx _ => rfl, hv⟩
  · intro c hcm
    obtain ⟨hcd, _, _, hext, _⟩ := mem_completionsF.1 hcm
    exact board_ext hcd hd (fun y hy x hx => hext y hy x hx (hc y hy x hx))

theorem numCompletions_of_complete {n : Nat} {b : Board} (hd : dims n b)
    (hr : inRange n b) (hc : complete n b) (hv : validBoard n b) :
    numCompletions n b = 1 := by
  rw [numCompletions, completionsF_of_complete hd hr hc hv,
    Finset.card_singleton]

theorem valid_row_distinct {n : Nat} {c : Board} (hv : validBoard n c)
    {y x1 x2 : Nat} (hy : y < n) (h1 : x1 < n) (h2 : x2 < n) (hne : x1 ≠ x2)
    (hz1 : cell c x1 y ≠ 0) (hz2 : cell c x2 y ≠ 0) :
    cell c x1 y ≠ cell c x2 y := by
  have h := hv.1 y hy
  unfold rowVals at h
  rw [listValid_map_iff (List.nodup_range n)] at h
  exact h x1 (List.mem_range.2 h1) x2 (List.mem_range.2 h2) hne hz1 hz2

theorem valid_col_distinct {n : Nat} {c : Board} (hv : validBoard n c)
    {x y1 y2 : Nat} (hx : x < n) (h1 : y1 < n) (h2 : y2 < n) (hne : y1 ≠ y2)
    (hz1 : cell c x y1 ≠ 0) (hz2 : cell c x y2 ≠ 0) :
    cell c x y1 ≠ cell c x y2 := by
  have h := hv.2.1 x hx
  unfold colVals at h
  rw [listValid_map_iff (List.nodup_range n)] at h
  exact h y1 (List.mem_range.2 h1) y2 (List.mem_range.2 h2) hne hz1 hz2

theorem valid_box_distinct {n : Nat} {c : Board} (hv : validBoard n c)
    {x y : Nat} (hx : x < n) (hy : y < n) {p q : Nat × Nat}
    (hp : p ∈ boxPositions n x y) (hq : q ∈ boxPositions n x y) (hne : p ≠ q)
    (hz1 : cell c p.1 p.2 ≠ 0) (hz2 : cell c q.1 q.2 ≠ 0) :
    cell c p.1 p.2 ≠ cell c q.1 q.2 := by
  have h := hv.2.2 x hx y hy
  unfold boxVals at h
  rw [listValid_map_iff (nodup_boxPositions n x y)] at h
  exact h p hp q hq hne hz1 hz2

/-- Branch decomposition: the completions of `b` are exactly the completions
of the boards obtained by writing one candidate of `getValidIntegers` into
the first empty cell. -/
theorem completionsF_branch {n : Nat} {b : Board} {x y : Nat} (hd : dims n b)
    (hx : x < n) (hy : y < n) (h0 : cell b x y = 0) :
    completionsF n b =
      (getValidIntegers n b x y).toFinset.biUnion
        (fun v => completionsF n (setCell b x y v)) := by
  have hs : 0 < squareSize n := squareSize_pos (by omega)
  ext c
  rw [mem_completionsF, Finset.mem_biUnion]
  constructor
  · intro hc
    obtain ⟨hcd, hcr, hcc, hce, hcv⟩ := hc
    have hv1 : cell c x y ≠ 0 := hcc y hy x hx
    have hv2 : cell c x y ≤ n := hcr y hy x hx
    have hvc : cell c x y ∈ getValidIntegers n b x y := by
      rw [mem_getValidIntegers]
      refine ⟨Nat.one_le_iff_ne_zero.2 hv1, hv2, ?_, ?_, ?_⟩
      · rw [mem_rowVals]
        rintro ⟨x', hx', hEq⟩
        have hbx' : cell b x' y ≠ 0 := by rw [hEq]; exact hv1
        have hxx : x' ≠ x := by
          intro hEq2
          subst hEq2
          exact hbx' h0
        have hcx' : cell c x' y = cell c x y := by
          rw [hce y hy x' hx' hbx', hEq]
        exact valid_row_distinct hcv hy hx' hx hxx (by rw [hcx']; exact hv1)
          hv1 hcx'
      · rw [mem_colVals]
        rintro ⟨y', hy', hEq⟩
        have hby' : cell b x y' ≠ 0 := by rw [hEq]; exact hv1
        have hyy : y' ≠ y := by
          intro hEq2
          subst hEq2
          exact hby' h0
        have hcy' : cell c x y' = cell c x y := by
          rw [hce y' hy' x hx hby', hEq]
        exact valid_col_distinct hcv hx hy' hy hyy (by rw [hcy']; exact hv1)
          hv1 hcy'
      · rw [mem_boxVals]
        rintro ⟨q, hq, hEq⟩
        have hbq : cell b q.1 q.2 ≠ 0 := by rw [hEq]; exact hv1
        have hq1 := cell_lt_of_ne_zero hd hbq
        have hqxy : q ≠ (x, y) := by
          intro hEq2
          subst hEq2
          exact hbq h0
        have hcq : cell c q.1 q.2 = cell c x y := by
          rw [hce q.2 hq1.2 q.1 hq1.1 hbq, hEq]
        exact valid_box_distinct hcv hx hy hq (self_mem_boxPositions hs) hqxy
          (by rw [hcq]; exact hv1) hv1 hcq
    refine ⟨cell c x y, List.mem_toFinset.2 hvc,
      mem_completionsF.2 ⟨hcd, hcr, hcc, ?_, hcv⟩⟩
    intro y' hy' x' hx' hnz
    by_cases hxy : x' = x ∧ y' = y
    · rcases hxy with ⟨rfl, rfl⟩
      rw [cell_setCell_eq hd hx hy]
    · rw [cell_setCell_ne b _ hxy] at hnz ⊢
      exact hce y' hy' x' hx' hnz
  · rintro ⟨v, hvmem, hcomp⟩
    obtain ⟨hcd, hcr, hcc, hce, hcv⟩ := mem_completionsF.1 hcomp
    refine ⟨hcd, hcr, hcc, ?_, hcv⟩
    intro y' hy' x' hx' hnz
    have hne : ¬(x' = x ∧ y' = y) := by
      rintro ⟨rfl, rfl⟩
      exact hnz h0
    have h := hce y' hy' x' hx'
    rw [cell_setCell_ne b v hne] at h
    exact h hnz

theorem completionsF_cell_value {n : Nat} {b : Board} {x y v : Nat}
    {c : Board} (hd : dims n b) (hx : x < n) (hy : y < n) (hvz : v ≠ 0)
    (hc : c ∈ completionsF n (setCell b x y v)) : cell c x y = v := by
  obtain ⟨_, _, _, hce, _⟩ := mem_completionsF.1 hc
  have h := hce y hy x hx (by rw [cell_setCell_eq hd hx hy]; exact hvz)
  rw [cell_setCell_eq hd hx hy] at h
  exact h

/-- The count of completions decomposes as the sum over the candidate list
of the first empty cell. -/
theorem numCompletions_branch {n : Nat} {b : Board} {x y : Nat}
    (hd : dims n b) (hx : x < n) (hy : y < n) (h0 : cell b x y = 0) :
    numCompletions n b =
      ((getValidIntegers n b x y).map
        (fun v => numCompletions n (setCell b x y v))).sum := by
  rw [numCompletions, completionsF_branch hd hx hy h0]
  rw [Finset.card_biUnion]
  · exact List.sum_toFinset _ (nodup_getValidIntegers n b x y)
  · intro v1 h1 v2 h2 hne
    have hz1 : v1 ≠ 0 := by
      have := getValidIntegers_pos (List.mem_toFinset.1 h1)
      omega
    rw [Finset.disjoint_left]
    intro c hc1 hc2
    have e1 := completionsF_cell_value hd hx hy hz1 hc1
    have hz2 : v2 ≠ 0 := by
      have := getValidIntegers_pos (List.mem_toFinset.1 h2)
      omega
    have e2 := completionsF_cell_value hd hx hy hz2 hc2
    exact hne (e1 ▸ e2 ▸ rfl)

theorem solveFold_count {n x y fuel : Nat} {b : Board} (hd : dims n b)
    (hx : x < n) (hy : y < n) (h0 : cell b x y = 0)
    (hr : inRange n b) (hv : validBoard n b)
    (ih : ∀ (b' sol' : Board), dims n b' → inRange n b' → validBoard n b' →
      emptyCount n b' < fuel →
      (solveBoardF n fuel b' sol').1 = numCompletions n b')
    (hfuel : emptyCount n b < fuel + 1) :
    ∀ (vs : List Nat), (∀ v ∈ vs, v ∈ getValidIntegers n b x y) →
      ∀ (cnt : Nat) (sol : Board),
        (solveFold x y (solveBoardF n fuel) vs (cnt, b, sol)).1
          = cnt + (vs.map (fun v => numCompletions n (setCell b x y v))).sum := by
  intro vs
  induction vs with
  | nil =>
    intro _ cnt sol
    simp [solveFold]
  | cons v vs ihl =>
    intro hsub cnt sol
    have hvc := hsub v (List.mem_cons_self _ _)
    have hvpos := getValidIntegers_pos hvc
    have hd1 := dims_setCell hd x y v
    have hr1 : inRange n (setCell b x y v) :=
      inRange_setCell hd hx hy hvpos.2 hr
    have hv1 := setCandidate_valid hd hx hy hvc hv
    have hec := emptyCount_set_fill hd hx hy h0 (by omega : v ≠ 0)
    have hrest := solveBoardF_restores n fuel (setCell b x y v) sol
    show (solveFold x y (solveBoardF n fuel) vs
      (cnt + (solveBoardF n fuel (setCell b x y v) sol).1,
        setCell (solveBoardF n fuel (setCell b x y v) sol).2.1 x y 0,
        (solveBoardF n fuel (setCell b x y v) sol).2.2)).1 = _
    rw [hrest, setCell_setCell, setCell_zero_self h0]
    rw [ihl (fun w hw => hsub w (List.mem_cons_of_mem _ hw)) _ _]
    rw [ih _ sol hd1 hr1 hv1 (by omega)]
    simp [List.map_cons, List.sum_cons]
    omega

/-- The solution counter counts completions exactly: with enough fuel, the
returned total is the number of distinct complete valid in-range boards
extending the input. -/
theorem solveBoardF_count (n : Nat) :
    ∀ (fuel : Nat) (b sol : Board), dims n b → inRange n b →
      validBoard n b → emptyCount n b < fuel →
      (solveBoardF n fuel b sol).1 = numCompletions n b := by
  intro fuel
  induction fuel with
  | zero =>
    intro b sol _ _ _ h
    omega
  | succ fuel ih =>
    intro b sol hd hr hv hfuel
    cases h : nextEmpty n b with
    | none =>
      have hc := nextEmpty_none h
      have h1 := numCompletions_of_complete hd hr hc hv
      simp [solveBoardF, h, h1]
    | some p =>
      obtain ⟨x, y⟩ := p
      obtain ⟨hx, hy, h0⟩ := nextEmpty_some h
      have hred : solveBoardF n (fuel + 1) b sol
          = solveFold x y (solveBoardF n fuel) (getValidIntegers n b x y)
              (0, b, sol) := by
        simp [solveBoardF, h]
      rw [hred,
        solveFold_count hd hx hy h0 hr hv ih hfuel (getValidIntegers n b x y)
          (fun v hv' => hv') 0 sol,
        numCompletions_branch hd hx hy h0]
      omega

/- ## Clue monotonicity -/

/-- Every filled cell of `f` is filled with the same value in `g` (the clue
set of `f` is contained in that of `g`). -/
def clueSub (n : Nat) (f g : Board) : Prop :=
  ∀ y < n, ∀ x < n, cell f x y ≠ 0 → cell g x y = cell f x y

theorem clueSub_refl (n : Nat) (b : Board) : clueSub n b b :=
  fun _ _ _ _ _ => rfl

theorem clueSub_trans {n : Nat} {f g h : Board} (h1 : clueSub n f g)
    (h2 : clueSub n g h) : clueSub n f h := by
  intro y hy x hx hnz
  rw [h2 y hy x hx (by rw [h1 y hy x hx hnz]; exact hnz), h1 y hy x hx hnz]

theorem cell_setCell_zero_self (b : Board) (x y : Nat) :
    cell (setCell b x y 0) x y = 0 := by
  unfold cell setCell
  by_cases hyl : y < b.length
  · rw [getD_set, if_pos ⟨rfl, hyl⟩, getD_set]
    by_cases hxl : x < (b.getD y []).length
    · rw [if_pos ⟨rfl, hxl⟩]
    · rw [if_neg (fun hand => hxl hand.2)]
      exact List.getD_eq_default _ _ (Nat.le_of_not_lt hxl)
  · rw [getD_set, if_neg (fun hand => hyl hand.2),
      List.getD_eq_default _ _ (by omega : b.length ≤ y)]
    rfl

theorem clueSub_setCell_zero {n : Nat} (b : Board) (x y : Nat) :
    clueSub n (setCell b x y 0) b := by
  intro y' hy' x' hx' hnz
  by_cases hxy : x' = x ∧ y' = y
  · rcases hxy with ⟨rfl, rfl⟩
    exact absurd (cell_setCell_zero_self b x' y') hnz
  · rw [cell_setCell_ne b 0 hxy] at hnz ⊢

theorem clueSub_setCell_zero_both {n : Nat} {f b : Board} {x y : Nat}
    (h : clueSub n f b) :
    clueSub n (setCell f x y 0) (setCell b x y 0) := by
  intro y' hy' x' hx' hnz
  by_cases hxy : x' = x ∧ y' = y
  · rcases hxy with ⟨rfl, rfl⟩
    exact absurd (cell_setCell_zero_self f x' y') hnz
  · rw [cell_setCell_ne f 0 hxy] at hnz ⊢
    rw [cell_setCell_ne b 0 hxy]
    exact h y' hy' x' hx' hnz

/-- Removing clues can only enlarge the set of completions. -/
theorem completionsF_mono {n : Nat} {f g : Board} (h : clueSub n f g) :
    completionsF n g ⊆ completionsF n f := by
  intro c hc
  obtain ⟨hcd, hcr, hcc, hce, hcv⟩ := mem_completionsF.1 hc
  refine mem_completionsF.2 ⟨hcd, hcr, hcc, ?_, hcv⟩
  intro y hy x hx hnz
  have hg : cell g x y = cell f x y := h y hy x hx hnz
  rw [hce y hy x hx (by rw [hg]; exact hnz), hg]

theorem numCompletions_mono {n : Nat} {f g : Board} (h : clueSub n f g) :
    numCompletions n g ≤ numCompletions n f :=
  Finset.card_le_card (completionsF_mono h)

/- ## The shuffler `shuffleValues` -/

theorem getD_append {α : Type} (A B : List α) (j : Nat) (d : α) :
    (A ++ B).getD j d =
      if j < A.length then A.getD j d else B.getD (j - A.length) d := by
  rw [List.getD_eq_getElem?_getD, List.getElem?_append]
  by_cases h : j < A.length
  · rw [if_pos h, if_pos h, List.getD_eq_getElem?_getD]
  · rw [if_neg h, if_neg h, List.getD_eq_getElem?_getD]

theorem getD_take {α : Type} (l : List α) (k j : Nat) (d : α) :
    (l.take k).getD j d = if j < k then l.getD j d else d := by
  rw [List.getD_eq_getElem?_getD, List.getElem?_take]
  by_cases h : j < k
  · rw [if_pos h, if_pos h, List.getD_eq_getElem?_getD]
  · rw [if_neg h, if_neg h]
    rfl

theorem getD_drop {α : Type} (l : List α) (k j : Nat) (d : α) :
    (l.drop k).getD j d = l.getD (k + j) d := by
  rw [List.getD_eq_getElem?_getD, List.getElem?_drop, List.getD_eq_getElem?_getD]

/-- The shift loop of `shuffleValues` (src lines 497-499): for
`i = r, ..., bound - 1`, overwrite `list[i]` with `list[i + 1]`.  The final
iteration reads index `bound`. -/
def shiftLeft (l : List Nat) (r bound : Nat) : List Nat :=
  (List.range' r (bound - r)).foldl (fun acc i => acc.set i (acc.getD (i + 1) 0)) l

theorem shiftLeft_aux_getD (k : Nat) :
    ∀ (l : List Nat) (r j : Nat),
      ((List.range' r k).foldl
        (fun acc i => acc.set i (acc.getD (i + 1) 0)) l).getD j 0 =
        if r ≤ j ∧ j < r + k then l.getD (j + 1) 0 else l.getD j 0 := by
  induction k with
  | zero =>
    intro l r j
    rw [List.range'_zero, List.foldl_nil, if_neg (by omega)]
  | succ k ih =>
    intro l r j
    rw [List.range'_succ, List.foldl_cons, ih]
    by_cases h1 : r + 1 ≤ j ∧ j < r + 1 + k
    · rw [if_pos h1, if_pos (by omega)]
      exact getD_set_ne _ _ _ (by omega)
    · rw [if_neg h1]
      by_cases h2 : j = r
      · subst h2
        rw [if_pos (by omega), getD_set]
        by_cases h3 : j < l.length
        · rw [if_pos ⟨rfl, h3⟩]
        · rw [if_neg (fun hand => h3 hand.2),
            List.getD_eq_default _ _ (by omega),
            List.getD_eq_default _ _ (by omega)]
      · rw [if_neg (by omega)]
        exact getD_set_ne _ _ _ (by omega)

theorem shiftLeft_getD (l : List Nat) (r bound j : Nat) :
    (shiftLeft l r bound).getD j 0 =
      if r ≤ j ∧ j < bound then l.getD (j + 1) 0 else l.getD j 0 := by
  unfold shiftLeft
  rw [shiftLeft_aux_getD]
  by_cases h : r ≤ j ∧ j < bound
  · rw [if_pos (by omega), if_pos h]
  · rw [if_neg (by omega), if_neg h]

theorem shiftLeft_length (l : List Nat) (r bound : Nat) :
    (shiftLeft l r bound).length = l.length := by
  unfold shiftLeft
  generalize bound - r = k
  induction k generalizing l r with
  | zero => rfl
  | succ k ih =>
    rw [List.range'_succ, List.foldl_cons, ih, List.length_set]

/-- C `shuffleValues` (src lines 480-511), with an access trace.  One
do-while pass per remaining `listSize = m + 1`: draw `r = rand() % listSize`,
read `listItem = list[r]`, shift the elements after `r` one slot left (the
final shift iteration reads index `listSize`), decrement `listSize`, and
write `listItem` at the vacated slot.  Returns the final array, the unused
random stream, the indices read, and the indices written, in program
order.  (The C do-while body would run once even for `listSize = 0`, where
`rand() % 0` is undefined; both callers pass `listSize ≥ 1`.) -/
def shuffleRun : Nat → List Nat → List Nat → List Nat × List Nat × List Nat × List Nat
  | 0, l, rs => (l, rs, [], [])
  | m + 1, l, rs =>
    let r := rs.headD 0 % (m + 1)
    let item := l.getD r 0
    let l2 := (shiftLeft l r (m + 1)).set m item
    let rest := shuffleRun m l2 rs.tail
    (rest.1, rest.2.1,
      (r :: List.range' (r + 1) (m + 1 - r)) ++ rest.2.2.1,
      (List.range' r (m + 1 - r) ++ [m]) ++ rest.2.2.2)

/-- C `shuffleValues`: the shuffled array and the remaining random stream. -/
def shuffleValues (l : List Nat) (listSize : Nat) (rs : List Nat) :
    List Nat × List Nat :=
  ((shuffleRun listSize l rs).1, (shuffleRun listSize l rs).2.1)

/-- The array indices read by `shuffleValues` (the `list[randomIndex]` draw,
then `list[i + 1]` for each shift iteration `i`), in program order. -/
def shuffleReads (l : List Nat) (listSize : Nat) (rs : List Nat) : List Nat :=
  (shuffleRun listSize l rs).2.2.1

/-- The array indices written by `shuffleValues` (`list[i]` for each shift
iteration `i`, then `list[listSize]` after the decrement), in program
order. -/
def shuffleWrites (l : List Nat) (listSize : Nat) (rs : List Nat) : List Nat :=
  (shuffleRun listSize l rs).2.2.2

theorem shuffle_step_eq {l : List Nat} {r m : Nat} (hr : r ≤ m)
    (hm : m + 1 ≤ l.length) :
    (shiftLeft l r (m + 1)).set m (l.getD r 0)
      = l.take r ++ ((l.drop (r + 1)).take (m - r)
          ++ (l.getD r 0 :: l.drop (m + 1))) := by
  have hlen : ((shiftLeft l r (m + 1)).set m (l.getD r 0)).length = l.length := by
    rw [List.length_set, shiftLeft_length]
  refine ext_getD 0 ?_ ?_
  · rw [hlen]
    simp only [List.length_append, List.length_take, List.length_drop,
      List.length_cons]
    omega
  · intro j hj
    rw [hlen] at hj
    rw [getD_set, shiftLeft_length, shiftLeft_getD]
    simp only [getD_append, getD_take, getD_drop, List.length_take,
      List.length_drop, List.length_cons]
    have hmin1 : r ⊓ l.length = r := by omega
    have hmin2 : (m - r) ⊓ (l.length - (r + 1)) = m - r := by omega
    rw [hmin1, hmin2]
    rcases Nat.lt_or_ge j r with hc | hc
    · rw [if_neg (show ¬(m = j ∧ m < l.length) from by omega),
        if_neg (show ¬(r ≤ j ∧ j < m + 1) from by omega),
        if_pos (show j < r from hc), if_pos (show j < r from hc)]
    · by_cases h1 : j = m
      · subst h1
        rw [if_pos (show j = j ∧ j < l.length from by omega),
          if_neg (show ¬(j < r) from by omega),
          if_neg (show ¬(j - r < j - r) from by omega),
          show j - r - (j - r) = 0 from by omega, List.getD_cons_zero]
      · by_cases h3 : j < m
        · rw [if_neg (show ¬(m = j ∧ m < l.length) from by omega),
            if_pos (show r ≤ j ∧ j < m + 1 from by omega),
            if_neg (show ¬(j < r) from by omega),
            if_pos (show j - r < m - r from by omega),
            if_pos (show j - r < m - r from by omega)]
          congr 1
          omega
        · rw [if_neg (show ¬(m = j ∧ m < l.length) from by omega),
            if_neg (show ¬(r ≤ j ∧ j < m + 1) from by omega),
            if_neg (show ¬(j < r) from by omega),
            if_neg (show ¬(j - r < m - r) from by omega),
            show j - r - (m - r) = j - m - 1 + 1 from by omega,
            List.getD_cons_succ, getD_drop]
          congr 1
          omega

theorem shuffle_step_perm {l : List Nat} {r m : Nat} (hr : r ≤ m)
    (hm : m + 1 ≤ l.length) :
    ((shiftLeft l r (m + 1)).set m (l.getD r 0)).Perm l := by
  have hl : l = l.take r ++ (l.getD r 0
      :: ((l.drop (r + 1)).take (m - r) ++ l.drop (m + 1))) := by
    refine (ext_getD 0 ?_ ?_).symm
    · simp only [List.length_append, List.length_take, List.length_drop,
        List.length_cons]
      omega
    · intro j hj
      simp only [List.length_append, List.length_take, List.length_drop,
        List.length_cons] at hj
      simp only [getD_append, getD_take, getD_drop, List.length_take,
        List.length_drop, List.length_cons]
      have hmin1 : r ⊓ l.length = r := by omega
      rw [hmin1]
      by_cases h2 : j < r
      · rw [if_pos (show j < r from h2), if_pos (show j < r from h2)]
      · rw [if_neg (show ¬(j < r) from h2)]
        by_cases h1 : j = r
        · subst h1
          rw [show j - j = 0 from by omega, List.getD_cons_zero]
        · rw [show j - r = j - r - 1 + 1 from by omega, List.getD_cons_succ,
            getD_append, List.length_take, List.length_drop, getD_take]
          rw [show (m - r) ⊓ (l.length - (r + 1)) = m - r from by omega]
          by_cases h3 : j ≤ m
          · rw [if_pos (show j - r - 1 < m - r from by omega),
              if_pos (show j - r - 1 < m - r from by omega), getD_drop]
            congr 1
            omega
          · rw [if_neg (show ¬(j - r - 1 < m - r) from by omega), getD_drop]
            congr 1
            omega
  rw [shuffle_step_eq hr hm]
  conv_rhs => rw [hl]
  exact List.Perm.append_left _ List.perm_middle

/-- The shuffled array is a permutation of the input array, whenever the
requested size does not exceed the array (both call sites pass the exact
array length). -/
theorem shuffleRun_perm (m : Nat) :
    ∀ (l rs : List Nat), m ≤ l.length → ((shuffleRun m l rs).1).Perm l := by
  induction m with
  | zero =>
    intro l rs _
    exact List.Perm.refl l
  | succ m ih =>
    intro l rs hm
    have hr : rs.headD 0 % (m + 1) ≤ m := by
      have := Nat.mod_lt (rs.headD 0) (show 0 < m + 1 by omega)
      omega
    have hstep := shuffle_step_perm hr hm
    have hrun : (shuffleRun (m + 1) l rs).1
        = (shuffleRun m ((shiftLeft l (rs.headD 0 % (m + 1)) (m + 1)).set m
            (l.getD (rs.headD 0 % (m + 1)) 0)) rs.tail).1 := rfl
    rw [hrun]
    exact (ih _ rs.tail (by rw [List.length_set, shiftLeft_length]; omega)).trans
      hstep

theorem shuffleValues_perm {l : List Nat} {m : Nat} (rs : List Nat)
    (hm : m ≤ l.length) : ((shuffleValues l m rs).1).Perm l :=
  shuffleRun_perm m l rs hm

/-- Access bounds of one shuffle call: every write lands in
`[0, listSize - 1]`, every read in `[0, listSize]` (the first pass of the
shift loop reads index `listSize`). -/
theorem shuffleRun_access_bounds (m : Nat) :
    ∀ (l rs : List Nat),
      (∀ i ∈ (shuffleRun m l rs).2.2.1, i ≤ m) ∧
        (∀ i ∈ (shuffleRun m l rs).2.2.2, i < m) := by
  induction m with
  | zero =>
    intro l rs
    constructor <;> intro i hi <;> simp [shuffleRun] at hi
  | succ m ih =>
    intro l rs
    have hreads : (shuffleRun (m + 1) l rs).2.2.1
        = (rs.headD 0 % (m + 1)
            :: List.range' (rs.headD 0 % (m + 1) + 1)
                 (m + 1 - rs.headD 0 % (m + 1)))
          ++ (shuffleRun m ((shiftLeft l (rs.headD 0 % (m + 1)) (m + 1)).set m
              (l.getD (rs.headD 0 % (m + 1)) 0)) rs.tail).2.2.1 := rfl
    have hwrites : (shuffleRun (m + 1) l rs).2.2.2
        = (List.range' (rs.headD 0 % (m + 1)) (m + 1 - rs.headD 0 % (m + 1))
            ++ [m])
          ++ (shuffleRun m ((shiftLeft l (rs.headD 0 % (m + 1)) (m + 1)).set m
              (l.getD (rs.headD 0 % (m + 1)) 0)) rs.tail).2.2.2 := rfl
    have hr : rs.headD 0 % (m + 1) < m + 1 :=
      Nat.mod_lt (rs.headD 0) (by omega)
    constructor
    · intro i hi
      rw [hreads] at hi
      rcases List.mem_append.1 hi with h | h
      · rcases List.mem_cons.1 h with rfl | h'
        · omega
        · have := List.mem_range'_1.1 h'
          omega
      · have := (ih _ rs.tail).1 i h
        omega
    · intro i hi
      rw [hwrites] at hi
      rcases List.mem_append.1 hi with h | h
      · rcases List.mem_append.1 h with h' | h'
        · have := List.mem_range'_1.1 h'
          omega
        · have := List.mem_singleton.1 h'
          omega
      · have := (ih _ rs.tail).2 i h
        omega

/- ## The board generator `randomFillBoard` -/

/-- The candidate loop of `randomFillBoard` (src lines 173-187): try each
shuffled candidate while not solved — write it, recurse (`rec` is the
recursive call), and on failure reset the cell to `EMPTY` before the next
candidate. -/
def tryFill (x y : Nat) (rec : Board → List Nat → Bool × Board × List Nat) :
    List Nat → Board → List Nat → Bool × Board × List Nat
  | [], b, rs => (false, b, rs)
  | v :: vs, b, rs =>
    let r := rec (setCell b x y v) rs
    if r.1 then r
    else tryFill x y rec vs (setCell r.2.1 x y 0) r.2.2

/-- C `randomFillBoard` (src lines 143-191), fuelled: find the next empty
cell (none left means solved), compute its candidates (none means the board
is unsolvable, return `FALSE`), shuffle them, and try them in order.  One
unit of fuel per recursion level; each level fills an empty cell, so the
wrapper's `n * n + 1` fuel is never exhausted. -/
def randomFillBoardF (n : Nat) :
    Nat → Board → List Nat → Bool × Board × List Nat
  | 0, b, rs => (false, b, rs)
  | fuel + 1, b, rs =>
    match nextEmpty n b with
    | none => (true, b, rs)
    | some (x, y) =>
      let cands := getValidIntegers n b x y
      if cands.length = 0 then (false, b, rs)
      else
        let sh := shuffleValues cands cands.length rs
        tryFill x y (randomFillBoardF n fuel) sh.1 b sh.2

/-- C `randomFillBoard` entry with fuel `n * n + 1`. -/
def randomFillBoard (n : Nat) (b : Board) (rs : List Nat) :
    Bool × Board × List Nat :=
  randomFillBoardF n (n * n + 1) b rs

theorem tryFill_false {x y : Nat}
    {rec : Board → List Nat → Bool × Board × List Nat}
    (hrec : ∀ b' rs', (rec b' rs').1 = false → (rec b' rs').2.1 = b') :
    ∀ (vs : List Nat) (b : Board) (rs : List Nat), cell b x y = 0 →
      (tryFill x y rec vs b rs).1 = false →
      (tryFill x y rec vs b rs).2.1 = b := by
  intro vs
  induction vs with
  | nil =>
    intro b rs _ _
    rfl
  | cons v vs ih =>
    intro b rs h0 hfail
    simp only [tryFill] at hfail ⊢
    by_cases hr : (rec (setCell b x y v) rs).1 = true
    · rw [if_pos hr] at hfail
      rw [hr] at hfail
      exact absurd hfail (by simp)
    · rw [if_neg hr] at hfail ⊢
      have hfalse : (rec (setCell b x y v) rs).1 = false := by
        revert hr
        cases (rec (setCell b x y v) rs).1 <;> simp
      have hrb := hrec _ rs hfalse
      rw [hrb, setCell_setCell, setCell_zero_self h0] at hfail ⊢
      exact ih b _ h0 hfail

theorem tryFill_true {n x y : Nat}
    {rec : Board → List Nat → Bool × Board × List Nat}
    (hrecT : ∀ b' rs', dims n b' → validBoard n b' → (rec b' rs').1 = true →
      dims n (rec b' rs').2.1 ∧ complete n (rec b' rs').2.1 ∧
        validBoard n (rec b' rs').2.1)
    (hrecF : ∀ b' rs', (rec b' rs').1 = false → (rec b' rs').2.1 = b')
    (hx : x < n) (hy : y < n) :
    ∀ (vs : List Nat) (b : Board) (rs : List Nat), dims n b →
      validBoard n b → cell b x y = 0 →
      (∀ v ∈ vs, v ∈ getValidIntegers n b x y) →
      (tryFill x y rec vs b rs).1 = true →
      dims n (tryFill x y rec vs b rs).2.1 ∧
        complete n (tryFill x y rec vs b rs).2.1 ∧
        validBoard n (tryFill x y rec vs b rs).2.1 := by
  intro vs
  induction vs with
  | nil =>
    intro b rs _ _ _ _ hdone
    exact absurd hdone (by simp [tryFill])
  | cons v vs ih =>
    intro b rs hd hv h0 hmem hdone
    simp only [tryFill] at hdone ⊢
    by_cases hr : (rec (setCell b x y v) rs).1 = true
    · rw [if_pos hr] at hdone ⊢
      exact hrecT _ rs (dims_setCell hd x y v)
        (setCandidate_valid hd hx hy (hmem v (List.mem_cons_self _ _)) hv) hr
    · rw [if_neg hr] at hdone ⊢
      have hfalse : (rec (setCell b x y v) rs).1 = false := by
        revert hr
        cases (rec (setCell b x y v) rs).1 <;> simp
      have hrb := hrecF _ rs hfalse
      rw [hrb, setCell_setCell, setCell_zero_self h0] at hdone ⊢
      exact ih b _ hd hv h0 (fun w hw => hmem w (List.mem_cons_of_mem _ hw))
        hdone

/-- On failure, `randomFillBoardF` hands the board back unchanged. -/
theorem randomFillBoardF_false (n : Nat) :
    ∀ (fuel : Nat) (b : Board) (rs : List Nat),
      (randomFillBoardF n fuel b rs).1 = false →
      (randomFillBoardF n fuel b rs).2.1 = b := by
  intro fuel
  induction fuel with
  | zero =>
    intro b rs _
    rfl
  | succ fuel ih =>
    intro b rs hfail
    cases h : nextEmpty n b with
    | none =>
      rw [show randomFillBoardF n (fuel + 1) b rs = (true, b, rs) by
        simp [randomFillBoardF, h]] at hfail
      exact absurd hfail (by simp)
    | some p =>
      obtain ⟨x, y⟩ := p
      have h0 := (nextEmpty_some h).2.2
      by_cases hc : (getValidIntegers n b x y).length = 0
      · rw [show randomFillBoardF n (fuel + 1) b rs = (false, b, rs) by
          simp [randomFillBoardF, h, hc]]
      · have hred : randomFillBoardF n (fuel + 1) b rs
            = tryFill x y (randomFillBoardF n fuel)
                (shuffleValues (getValidIntegers n b x y)
                  (getValidIntegers n b x y).length rs).1 b
                (shuffleValues (getValidIntegers n b x y)
                  (getValidIntegers n b x y).length rs).2 := by
          simp [randomFillBoardF, h, hc]
        rw [hred] at hfail ⊢
        exact tryFill_false (fun b' rs' => ih b' rs') _ b _ h0 hfail

/-- On success, `randomFillBoardF` returns a completely filled valid
board. -/
theorem randomFillBoardF_true (n : Nat) :
    ∀ (fuel : Nat) (b : Board) (rs : List Nat), dims n b → validBoard n b →
      (randomFillBoardF n fuel b rs).1 = true →
      dims n (randomFillBoardF n fuel b rs).2.1 ∧
        complete n (randomFillBoardF n fuel b rs).2.1 ∧
        validBoard n (randomFillBoardF n fuel b rs).2.1 := by
  intro fuel
  induction fuel with
  | zero =>
    intro b rs _ _ hdone
    exact absurd hdone (by simp [randomFillBoardF])
  | succ fuel ih =>
    intro b rs hd hv hdone
    cases h : nextEmpty n b with
    | none =>
      rw [show randomFillBoardF n (fuel + 1) b rs = (true, b, rs) by
        simp [randomFillBoardF, h]]
      exact ⟨hd, nextEmpty_none h, hv⟩
    | some p =>
      obtain ⟨x, y⟩ := p
      obtain ⟨hx, hy, h0⟩ := nextEmpty_some h
      by_cases hc : (getValidIntegers n b x y).length = 0
      · rw [show randomFillBoardF n (fuel + 1) b rs = (false, b, rs) by
          simp [randomFillBoardF, h, hc]] at hdone
        exact absurd hdone (by simp)
      · have hred : randomFillBoardF n (fuel + 1) b rs
            = tryFill x y (randomFillBoardF n fuel)
                (shuffleValues (getValidIntegers n b x y)
                  (getValidIntegers n b x y).length rs).1 b
                (shuffleValues (getValidIntegers n b x y)
                  (getValidIntegers n b x y).length rs).2 := by
          simp [randomFillBoardF, h, hc]
        rw [hred] at hdone ⊢
        refine tryFill_true (fun b' rs' => ih b' rs')
          (fun b' rs' => randomFillBoardF_false n fuel b' rs') hx hy _ b _
          hd hv h0 ?_ hdone
        intro v hvmem
        exact (shuffleValues_perm rs (Nat.le_refl _)).mem_iff.1 hvmem

/-- C `generateBoard` (src lines 121-133): zero every cell of the given
array (so the caller's array content is irrelevant), call
`randomFillBoard`, and `return 1` unconditionally — the fill result is
discarded, and no validation of the board order is performed anywhere (the
order is the compile-time constant `SIZE`). -/
def generateBoard (n : Nat) (rs : List Nat) : Nat × Board × List Nat :=
  let zeroed : Board := List.replicate n (List.replicate n 0)
  let r := randomFillBoard n zeroed rs
  (1, r.2.1, r.2.2)

/- ## Wrapper facts for `solveBoard` -/

theorem solveBoard_restores (n : Nat) (b sol : Board) :
    (solveBoard n b sol).2.1 = b :=
  solveBoardF_restores n (n * n + 1) b sol

theorem solveBoard_count {n : Nat} {b : Board} (sol : Board) (hd : dims n b)
    (hr : inRange n b) (hv : validBoard n b) :
    (solveBoard n b sol).1 = numCompletions n b := by
  refine solveBoardF_count n (n * n + 1) b sol hd hr hv ?_
  have := emptyCount_le n b
  omega

theorem numCompletions_pos {n : Nat} {b b0 : Board}
    (h : isCompletion n b b0) : 1 ≤ numCompletions n b :=
  Finset.card_pos.2 ⟨b0, mem_completionsF.2 h⟩

/- ## The puzzle reducer `generatePuzzle` -/

/-- The removal loop of `generatePuzzle` (src lines 228-253): while cells
remain and fewer than `maxEmpty` cells have been emptied, draw the next cell
number `c`, convert it to coordinates (`y = c / n` by integer division,
`x = c % n` by remainder), record the cell value, clear the cell, count
solutions with `solveBoard`, restore the recorded value when the count
exceeds 1, and increment the tally otherwise. -/
def genLoop (n maxEmpty : Nat) :
    List Nat → Nat → Board → Board → Nat × Board × Board
  | [], cnt, b, sol => (cnt, b, sol)
  | c :: rest, cnt, b, sol =>
    if cnt < maxEmpty then
      let x := c % n
      let y := c / n
      let v := cell b x y
      let b1 := setCell b x y 0
      let r := solveBoard n b1 sol
      if r.1 > 1 then genLoop n maxEmpty rest cnt (setCell r.2.1 x y v) r.2.2
      else genLoop n maxEmpty rest (cnt + 1) r.2.1 r.2.2
    else (cnt, b, sol)

/-- C `generatePuzzle` (src lines 207-255): build the list `0 .. n² - 1` of
cell numbers, shuffle it, and run the removal loop with tally 0.
`MAX_EMPTY` is the macro bound (81 for `SIZE = 9`), modelled as the
parameter `maxEmpty`.  Returns (emptied count, puzzle board, solution board,
remaining random stream). -/
def generatePuzzle (n maxEmpty : Nat) (b sol : Board) (rs : List Nat) :
    Nat × Board × Board × List Nat :=
  let sh := shuffleValues (List.range (n * n)) (n * n) rs
  let r := genLoop n maxEmpty sh.1 0 b sol
  (r.1, r.2.1, r.2.2, sh.2)

/-- Trace predicate over the actual execution of the removal loop: every
solution count the loop consults is at least 1.  Since the code restores the
cell exactly when `count > 1` and increments the tally otherwise, this is
precisely: restoration happens exactly on count ≥ 2, and the tally
increments exactly on count = 1. -/
def genLoopCounts (n maxEmpty : Nat) :
    List Nat → Nat → Board → Board → Prop
  | [], _, _, _ => True
  | c :: rest, cnt, b, sol =>
    cnt < maxEmpty →
      1 ≤ (solveBoard n (setCell b (c % n) (c / n) 0) sol).1 ∧
      (if (solveBoard n (setCell b (c % n) (c / n) 0) sol).1 > 1 then
        genLoopCounts n maxEmpty rest cnt
          (setCell (solveBoard n (setCell b (c % n) (c / n) 0) sol).2.1
            (c % n) (c / n) (cell b (c % n) (c / n)))
          (solveBoard n (setCell b (c % n) (c / n) 0) sol).2.2
      else
        genLoopCounts n maxEmpty rest (cnt + 1)
          (solveBoard n (setCell b (c % n) (c / n) 0) sol).2.1
          (solveBoard n (setCell b (c % n) (c / n) 0) sol).2.2)

/-- Distinct cell numbers below `n * n` denote distinct coordinates. -/
theorem cellNumber_coords_ne (n : Nat) {c c' : Nat} (hne : c' ≠ c) :
    ¬(c' % n = c % n ∧ c' / n = c / n) := by
  rintro ⟨h1, h2⟩
  apply hne
  have e1 := Nat.div_add_mod c n
  have e2 := Nat.div_add_mod c' n
  have e3 : n * (c / n) = n * (c' / n) := by rw [h2]
  omega

/-- The master invariant of the removal loop, starting from any reachable
state.  `b0` is the original complete solution, of which the current board
`b` is a sub-board with `cnt` cleared cells and a unique completion. -/
theorem genLoop_invariant (n maxEmpty : Nat) (b0 : Board) :
    ∀ (cells : List Nat) (cnt : Nat) (b sol : Board),
      dims n b → inRange n b → validBoard n b →
      isCompletion n b b0 →
      numCompletions n b = 1 →
      emptyCount n b = cnt →
      cells.Nodup → (∀ c ∈ cells, c < n * n) →
      (∀ c ∈ cells, cell b (c % n) (c / n) ≠ 0) →
      dims n (genLoop n maxEmpty cells cnt b sol).2.1 ∧
      numCompletions n (genLoop n maxEmpty cells cnt b sol).2.1 = 1 ∧
      (genLoop n maxEmpty cells cnt b sol).1
        = emptyCount n (genLoop n maxEmpty cells cnt b sol).2.1 ∧
      clueSub n (genLoop n maxEmpty cells cnt b sol).2.1 b ∧
      genLoopCounts n maxEmpty cells cnt b sol ∧
      ((genLoop n maxEmpty cells cnt b sol).1 < maxEmpty →
        ∀ c ∈ cells,
          cell (genLoop n maxEmpty cells cnt b sol).2.1 (c % n) (c / n) ≠ 0 →
          2 ≤ numCompletions n
            (setCell (genLoop n maxEmpty cells cnt b sol).2.1
              (c % n) (c / n) 0)) := by
  intro cells
  induction cells with
  | nil =>
    intro cnt b sol hd hr hv hcomp hone hcnt _ _ _
    refine ⟨hd, hone, hcnt.symm, clueSub_refl n b, trivial, ?_⟩
    intro _ c hc
    simp at hc
  | cons c rest ih =>
    intro cnt b sol hd hr hv hcomp hone hcnt hnd hbound hnz
    by_cases hsmall : cnt < maxEmpty
    · have hcn : c < n * n := hbound c (List.mem_cons_self _ _)
      have hn : 0 < n := by
        rcases Nat.eq_zero_or_pos n with h | h
        · rw [h] at hcn
          omega
        · exact h
      have hx : c % n < n := Nat.mod_lt _ hn
      have hy : c / n < n := (Nat.div_lt_iff_lt_mul hn).2 (by omega)
      have hv0 : cell b (c % n) (c / n) ≠ 0 := hnz c (List.mem_cons_self _ _)
      have hd1 : dims n (setCell b (c % n) (c / n) 0) :=
        dims_setCell hd _ _ 0
      have hr1 : inRange n (setCell b (c % n) (c / n) 0) :=
        inRange_setCell hd hx hy (by omega) hr
      have hv1 : validBoard n (setCell b (c % n) (c / n) 0) :=
        clear_valid hd hx hy hv
      have hres := solveBoard_restores n (setCell b (c % n) (c / n) 0) sol
      have hcount := solveBoard_count sol hd1 hr1 hv1
      have hsub1 : clueSub n (setCell b (c % n) (c / n) 0) b :=
        clueSub_setCell_zero b _ _
      have hb0c1 : isCompletion n (setCell b (c % n) (c / n) 0) b0 :=
        mem_completionsF.1 (completionsF_mono hsub1 (mem_completionsF.2 hcomp))
      have hge1 : 1 ≤ (solveBoard n (setCell b (c % n) (c / n) 0) sol).1 := by
        rw [hcount]
        exact numCompletions_pos hb0c1
      have hndr := (List.nodup_cons.1 hnd).2
      have hcr : c ∉ rest := (List.nodup_cons.1 hnd).1
      by_cases hbig : (solveBoard n (setCell b (c % n) (c / n) 0) sol).1 > 1
      · -- removal rejected: the value is restored and the board is `b` again
        have hred : genLoop n maxEmpty (c :: rest) cnt b sol
            = genLoop n maxEmpty rest cnt b
                (solveBoard n (setCell b (c % n) (c / n) 0) sol).2.2 := by
          simp only [genLoop]
          rw [if_pos hsmall, if_pos hbig, hres, setCell_restore]
        obtain ⟨ihd, ihone, ihcnt, ihsub, ihcounts, ihmin⟩ :=
          ih cnt b (solveBoard n (setCell b (c % n) (c / n) 0) sol).2.2
            hd hr hv hcomp hone hcnt hndr
            (fun c' hc' => hbound c' (List.mem_cons_of_mem _ hc'))
            (fun c' hc' => hnz c' (List.mem_cons_of_mem _ hc'))
        rw [hred]
        refine ⟨ihd, ihone, ihcnt, ihsub, ?_, ?_⟩
        · intro _
          refine ⟨hge1, ?_⟩
          rw [if_pos hbig, hres, setCell_restore]
          exact ihcounts
        · intro hfin c' hc' hfil
          rcases List.mem_cons.1 hc' with rfl | hc''
          · have hclear : clueSub n
                (setCell (genLoop n maxEmpty rest cnt b
                  (solveBoard n (setCell b (c' % n) (c' / n) 0) sol).2.2).2.1
                  (c' % n) (c' / n) 0)
                (setCell b (c' % n) (c' / n) 0) :=
              clueSub_setCell_zero_both ihsub
            have hmono := numCompletions_mono hclear
            omega
          · exact ihmin hfin c' hc'' hfil
      · -- removal accepted: the cell stays empty, the tally increments
        have hone1 : numCompletions n (setCell b (c % n) (c / n) 0) = 1 := by
          have h2 := numCompletions_pos hb0c1
          omega
        have hcnt1 : emptyCount n (setCell b (c % n) (c / n) 0) = cnt + 1 := by
          rw [emptyCount_set_clear hd hx hy hv0, hcnt]
        have hred : genLoop n maxEmpty (c :: rest) cnt b sol
            = genLoop n maxEmpty rest (cnt + 1)
                (setCell b (c % n) (c / n) 0)
                (solveBoard n (setCell b (c % n) (c / n) 0) sol).2.2 := by
          simp only [genLoop]
          rw [if_pos hsmall, if_neg hbig, hres]
        have hnz1 : ∀ c' ∈ rest,
            cell (setCell b (c % n) (c / n) 0) (c' % n) (c' / n) ≠ 0 := by
          intro c' hc'
          have hcc : c' ≠ c := fun hEq => hcr (hEq ▸ hc')
          have hne := cellNumber_coords_ne n hcc
          rw [cell_setCell_ne b 0 hne]
          exact hnz c' (List.mem_cons_of_mem _ hc')
        obtain ⟨ihd, ihone, ihcnt, ihsub, ihcounts, ihmin⟩ :=
          ih (cnt + 1) (setCell b (c % n) (c / n) 0)
            (solveBoard n (setCell b (c % n) (c / n) 0) sol).2.2
            hd1 hr1 hv1 hb0c1 hone1 hcnt1 hndr
            (fun c' hc' => hbound c' (List.mem_cons_of_mem _ hc'))
            hnz1
        rw [hred]
        refine ⟨ihd, ihone, ihcnt, clueSub_trans ihsub hsub1, ?_, ?_⟩
        · intro _
          refine ⟨hge1, ?_⟩
          rw [if_neg hbig, hres]
          exact ihcounts
        · intro hfin c' hc' hfil
          rcases List.mem_cons.1 hc' with rfl | hc''
          · exfalso
            have hzero : cell (setCell b (c' % n) (c' / n) 0)
                (c' % n) (c' / n) = 0 := cell_setCell_zero_self b _ _
            have hagree := ihsub (c' / n) hy (c' % n) hx hfil
            rw [hzero] at hagree
            exact hfil hagree.symm
          · exact ihmin hfin c' hc'' hfil
    · have hred : genLoop n maxEmpty (c :: rest) cnt b sol = (cnt, b, sol) := by
        simp only [genLoop]
        rw [if_neg hsmall]
      rw [hred]
      refine ⟨hd, hone, hcnt.symm, clueSub_refl n b, ?_, ?_⟩
      · intro hc
        exact absurd hc hsmall
      · intro hfin _ _ _
        exact absurd hfin hsmall

/- ## Concrete boards for the witnesses and counterexamples -/

/-- The order-4 Solution from the spec's concrete scenario (section 8). -/
def solutionBoard4 : Board := [[1, 2, 3, 4], [3, 4, 1, 2], [2, 1, 4, 3], [4, 3, 2, 1]]

/-- `solutionBoard4` with the cells `(0,0)`, `(2,0)`, `(0,1)`, `(2,1)`
cleared.  Those four cells form an unavoidable rectangle (values 1 and 3,
rows 0 and 1 in the same band), so this board has exactly two
completions. -/
def twoSolutionBoard4 : Board := [[0, 2, 0, 4], [0, 4, 0, 2], [2, 1, 4, 3], [4, 3, 2, 1]]

/-- The second completion of `twoSolutionBoard4` (the rectangle values
swapped). -/
def swappedBoard4 : Board := [[3, 2, 1, 4], [1, 4, 3, 2], [2, 1, 4, 3], [4, 3, 2, 1]]

/-- An all-`EMPTY` order-4 board (a freshly zeroed output array). -/
def zeroBoard4 : Board := List.replicate 4 (List.replicate 4 0)

/-- An all-`EMPTY` order-9 board. -/
def emptyBoard9 : Board := List.replicate 9 (List.replicate 9 0)

/- ## The claims -/

/-- C1: for every grid whose filled cells satisfy Sudoku validity (an
`n × n` grid with entries in `[0, n]`), `solveBoard` returns exactly the
number of distinct complete valid grids obtainable from the board by
filling its empty cells (0 when no completion exists), and in particular 1
on a grid with zero empty cells. -/
theorem solveBoard_counts_completions (n : Nat) (b sol : Board)
    (hd : dims n b) (hr : inRange n b) (hv : validBoard n b) :
    (solveBoard n b sol).1 = numCompletions n b ∧
      (complete n b → (solveBoard n b sol).1 = 1) :=
  ⟨solveBoard_count sol hd hr hv,
   fun hc => by
    rw [solveBoard_count sol hd hr hv]
    exact numCompletions_of_complete hd hr hc hv⟩

theorem solveBoard_counts_completions_witness :
    dims 4 twoSolutionBoard4 ∧ inRange 4 twoSolutionBoard4 ∧
      validBoard 4 twoSolutionBoard4 ∧
      ((solveBoard 4 twoSolutionBoard4 zeroBoard4).1
          = numCompletions 4 twoSolutionBoard4 ∧
        (complete 4 twoSolutionBoard4 →
          (solveBoard 4 twoSolutionBoard4 zeroBoard4).1 = 1)) :=
  ⟨by decide, by decide, by decide,
    solveBoard_counts_completions 4 twoSolutionBoard4 zeroBoard4
      (by decide) (by decide) (by decide)⟩

/-- C2 (code bug): the output grid holds the LAST complete solution found in
search order, not the first.  The C guard `totalSolutions == 0` at a leaf
(src line 340) tests a local variable that is always still 0, so the board
is copied into `solution` at every solution leaf and each later solution
overwrites the earlier one.  On `twoSolutionBoard4` the candidate order at
cell `(0,0)` is `[1, 3]`, so `solutionBoard4` (with 1 there) is found first,
yet the returned output is `swappedBoard4` (with 3 there), found last. -/
theorem solveBoard_returns_last_solution :
    (solveBoard 4 twoSolutionBoard4 zeroBoard4).1 = 2 ∧
      (solveBoard 4 twoSolutionBoard4 zeroBoard4).2.2 = swappedBoard4 ∧
      swappedBoard4 ≠ solutionBoard4 ∧
      isCompletion 4 twoSolutionBoard4 solutionBoard4 ∧
      isCompletion 4 twoSolutionBoard4 swappedBoard4 ∧
      getValidIntegers 4 twoSolutionBoard4 0 0 = [1, 3] :=
  ⟨by decide, by decide, by decide, by decide, by decide, by decide⟩

/-- C3: `solveBoard` returns its input board cell-for-cell identical to its
state at the call: every trial value written during the search has been
erased back to `EMPTY` before return. -/
theorem solveBoard_restores_input (n : Nat) (b sol : Board) :
    (solveBoard n b sol).2.1 = b :=
  solveBoard_restores n b sol

/-- C4: on a valid (possibly partially filled) `n × n` grid,
`randomFillBoard` returning `TRUE` means the board is completely filled and
valid; returning `FALSE` means the board is cell-for-cell equal to its
pre-call state. -/
theorem randomFillBoard_contract (n : Nat) (b : Board) (rs : List Nat)
    (hd : dims n b) (hv : validBoard n b) :
    ((randomFillBoard n b rs).1 = true →
        complete n (randomFillBoard n b rs).2.1 ∧
          validBoard n (randomFillBoard n b rs).2.1) ∧
      ((randomFillBoard n b rs).1 = false →
        (randomFillBoard n b rs).2.1 = b) :=
  ⟨fun h => ⟨(randomFillBoardF_true n (n * n + 1) b rs hd hv h).2.1,
      (randomFillBoardF_true n (n * n + 1) b rs hd hv h).2.2⟩,
   fun h => randomFillBoardF_false n (n * n + 1) b rs h⟩

theorem randomFillBoard_contract_witness :
    dims 4 zeroBoard4 ∧ validBoard 4 zeroBoard4 ∧
      (((randomFillBoard 4 zeroBoard4 []).1 = true →
          complete 4 (randomFillBoard 4 zeroBoard4 []).2.1 ∧
            validBoard 4 (randomFillBoard 4 zeroBoard4 []).2.1) ∧
        ((randomFillBoard 4 zeroBoard4 []).1 = false →
          (randomFillBoard 4 zeroBoard4 []).2.1 = zeroBoard4)) :=
  ⟨by decide, by decide,
    randomFillBoard_contract 4 zeroBoard4 [] (by decide) (by decide)⟩

/-- C5: for an empty cell `(x, y)` of the window, `getValidIntegers` returns
(as the collected prefix, whose length is the C return value) exactly the
values in `[1, n]` that appear nowhere in row `y`, column `x`, or the
sub-square of `(x, y)`; `EMPTY` (0) is never included (every member is
≥ 1), the list has no duplicates, and — the embedding being functional —
the board is not modified. -/
theorem getValidIntegers_spec (n : Nat) (b : Board) (x y : Nat)
    (hx : x < n) (hy : y < n) (h0 : cell b x y = 0) :
    (getValidIntegers n b x y).Nodup ∧
      ∀ v, v ∈ getValidIntegers n b x y ↔
        1 ≤ v ∧ v ≤ n ∧ v ∉ rowVals n b y ∧ v ∉ colVals n b x ∧
          v ∉ boxVals n b x y :=
  ⟨nodup_getValidIntegers n b x y, fun _ => mem_getValidIntegers⟩

theorem getValidIntegers_spec_witness :
    (4 < 9 ∧ 4 < 9 ∧ cell emptyBoard9 4 4 = 0) ∧
      getValidIntegers 9 emptyBoard9 4 4 = [1, 2, 3, 4, 5, 6, 7, 8, 9] ∧
      ((getValidIntegers 9 emptyBoard9 4 4).Nodup ∧
        ∀ v, v ∈ getValidIntegers 9 emptyBoard9 4 4 ↔
          1 ≤ v ∧ v ≤ 9 ∧ v ∉ rowVals 9 emptyBoard9 4 ∧
            v ∉ colVals 9 emptyBoard9 4 ∧ v ∉ boxVals 9 emptyBoard9 4 4) :=
  ⟨by decide, by decide,
    getValidIntegers_spec 9 emptyBoard9 4 4 (by decide) (by decide)
      (by decide)⟩

/-- C6: on a complete valid input grid, the removal loop of
`generatePuzzle` processes the shuffled list of all `n²` cells in order
(structural in `genLoop`), each trial clears the cell, invokes the solution
counter, restores the cleared value exactly on `count > 1` and increments
the tally otherwise, and stops when the list is exhausted or the tally
reaches `maxEmpty`.  The two non-structural facts are proved here: every
count consulted along the run is ≥ 1 (`genLoopCounts`), so restoration
happens exactly on count ≥ 2 and the tally increments exactly on count = 1;
and the returned value equals the number of `EMPTY` cells of the final
puzzle grid. -/
theorem generatePuzzle_loop_spec (n maxEmpty : Nat) (b sol : Board)
    (rs : List Nat) (hd : dims n b) (hr : inRange n b) (hv : validBoard n b)
    (hc : complete n b) :
    (generatePuzzle n maxEmpty b sol rs).1
        = emptyCount n (generatePuzzle n maxEmpty b sol rs).2.1 ∧
      genLoopCounts n maxEmpty
        (shuffleValues (List.range (n * n)) (n * n) rs).1 0 b sol := by
  have hperm : ((shuffleValues (List.range (n * n)) (n * n) rs).1).Perm
      (List.range (n * n)) :=
    shuffleValues_perm rs (by rw [List.length_range])
  have hcomp : isCompletion n b b := ⟨hd, hr, hc, fun _ _ _ _ _ => rfl, hv⟩
  have hnd : ((shuffleValues (List.range (n * n)) (n * n) rs).1).Nodup :=
    hperm.nodup_iff.2 (List.nodup_range _)
  have hbound : ∀ c ∈ (shuffleValues (List.range (n * n)) (n * n) rs).1,
      c < n * n := fun c hcm => List.mem_range.1 (hperm.mem_iff.1 hcm)
  have hnz : ∀ c ∈ (shuffleValues (List.range (n * n)) (n * n) rs).1,
      cell b (c % n) (c / n) ≠ 0 := by
    intro c hcm
    have hcn := hbound c hcm
    have hn : 0 < n := by
      rcases Nat.eq_zero_or_pos n with h | h
      · rw [h] at hcn
        omega
      · exact h
    exact hc (c / n) ((Nat.div_lt_iff_lt_mul hn).2 (by omega)) (c % n)
      (Nat.mod_lt _ hn)
  obtain ⟨_, _, hcnt, _, hcounts, _⟩ :=
    genLoop_invariant n maxEmpty b
      (shuffleValues (List.range (n * n)) (n * n) rs).1 0 b sol
      hd hr hv hcomp (numCompletions_of_complete hd hr hc hv)
      (emptyCount_eq_zero_of_complete hc) hnd hbound hnz
  exact ⟨hcnt, hcounts⟩

theorem generatePuzzle_loop_spec_witness :
    (dims 4 solutionBoard4 ∧ inRange 4 solutionBoard4 ∧
        validBoard 4 solutionBoard4 ∧ complete 4 solutionBoard4) ∧
      ((generatePuzzle 4 16 solutionBoard4 zeroBoard4 []).1
          = emptyCount 4 (generatePuzzle 4 16 solutionBoard4 zeroBoard4 []).2.1 ∧
        genLoopCounts 4 16
          (shuffleValues (List.range (4 * 4)) (4 * 4) []).1 0
          solutionBoard4 zeroBoard4) :=
  ⟨⟨by decide, by decide, by decide, by decide⟩,
    generatePuzzle_loop_spec 4 16 solutionBoard4 zeroBoard4 []
      (by decide) (by decide) (by decide) (by decide)⟩

/-- C7: when `generatePuzzle` returns with a tally below `maxEmpty` (so the
budget never cut iteration short and the whole shuffled cell list was
processed), the resulting puzzle grid has exactly one completion, and
clearing any single currently-filled cell of it yields a grid with at least
two completions (local minimality). -/
theorem generatePuzzle_local_minimality (n maxEmpty : Nat) (b sol : Board)
    (rs : List Nat) (hd : dims n b) (hr : inRange n b) (hv : validBoard n b)
    (hc : complete n b)
    (hfin : (generatePuzzle n maxEmpty b sol rs).1 < maxEmpty) :
    numCompletions n (generatePuzzle n maxEmpty b sol rs).2.1 = 1 ∧
      ∀ y < n, ∀ x < n,
        cell (generatePuzzle n maxEmpty b sol rs).2.1 x y ≠ 0 →
        2 ≤ numCompletions n
          (setCell (generatePuzzle n maxEmpty b sol rs).2.1 x y 0) := by
  have hperm : ((shuffleValues (List.range (n * n)) (n * n) rs).1).Perm
      (List.range (n * n)) :=
    shuffleValues_perm rs (by rw [List.length_range])
  have hcomp : isCompletion n b b := ⟨hd, hr, hc, fun _ _ _ _ _ => rfl, hv⟩
  have hnd : ((shuffleValues (List.range (n * n)) (n * n) rs).1).Nodup :=
    hperm.nodup_iff.2 (List.nodup_range _)
  have hbound : ∀ c ∈ (shuffleValues (List.range (n * n)) (n * n) rs).1,
      c < n * n := fun c hcm => List.mem_range.1 (hperm.mem_iff.1 hcm)
  have hnz : ∀ c ∈ (shuffleValues (List.range (n * n)) (n * n) rs).1,
      cell b (c % n) (c / n) ≠ 0 := by
    intro c hcm
    have hcn := hbound c hcm
    have hn : 0 < n := by
      rcases Nat.eq_zero_or_pos n with h | h
      · rw [h] at hcn
        omega
      · exact h
    exact hc (c / n) ((Nat.div_lt_iff_lt_mul hn).2 (by omega)) (c % n)
      (Nat.mod_lt _ hn)
  obtain ⟨_, hone, _, _, _, hmin⟩ :=
    genLoop_invariant n maxEmpty b
      (shuffleValues (List.range (n * n)) (n * n) rs).1 0 b sol
      hd hr hv hcomp (numCompletions_of_complete hd hr hc hv)
      (emptyCount_eq_zero_of_complete hc) hnd hbound hnz
  refine ⟨hone, ?_⟩
  intro y hy x hx hfil
  have hn : 0 < n := by omega
  have hcmem : x + y * n ∈ (shuffleValues (List.range (n * n)) (n * n) rs).1 := by
    rw [hperm.mem_iff]
    refine List.mem_range.2 ?_
    have h1 : (y + 1) * n ≤ n * n := Nat.mul_le_mul_right n (by omega)
    have h2 : x + y * n < (y + 1) * n := by
      rw [Nat.succ_mul]
      omega
    omega
  have hxmod : (x + y * n) % n = x := by
    rw [Nat.add_mul_mod_self_right, Nat.mod_eq_of_lt hx]
  have hydiv : (x + y * n) / n = y := by
    rw [Nat.add_mul_div_right _ _ hn, Nat.div_eq_of_lt hx]
    omega
  have hres := hmin hfin (x + y * n) hcmem
  rw [hxmod, hydiv] at hres
  exact hres hfil

set_option maxRecDepth 40000 in
theorem generatePuzzle_local_minimality_witness :
    (dims 4 solutionBoard4 ∧ inRange 4 solutionBoard4 ∧
        validBoard 4 solutionBoard4 ∧ complete 4 solutionBoard4 ∧
        (generatePuzzle 4 16 solutionBoard4 zeroBoard4 []).1 < 16) ∧
      (numCompletions 4 (generatePuzzle 4 16 solutionBoard4 zeroBoard4 []).2.1
          = 1 ∧
        ∀ y < 4, ∀ x < 4,
          cell (generatePuzzle 4 16 solutionBoard4 zeroBoard4 []).2.1 x y ≠ 0 →
          2 ≤ numCompletions 4
            (setCell (generatePuzzle 4 16 solutionBoard4 zeroBoard4 []).2.1
              x y 0)) :=
  ⟨⟨by decide, by decide, by decide, by decide, by decide⟩,
    generatePuzzle_local_minimality 4 16 solutionBoard4 zeroBoard4 []
      (by decide) (by decide) (by decide) (by decide) (by decide)⟩

/-- C8: starting from a valid grid, every single-cell mutation the engine
performs preserves validity: writing a value reported legal by
`getValidIntegers` into the empty cell it was computed for (the only kind
of nonzero write `randomFillBoard` and `solveBoard` perform), clearing a
cell to `EMPTY`, and the value restoration of `generatePuzzle`, which
recovers the previous (valid) grid exactly. -/
theorem engine_write_preserves_validity (n : Nat) (b : Board) (x y v : Nat)
    (hd : dims n b) (hx : x < n) (hy : y < n) (hv : validBoard n b) :
    (cell b x y = 0 → v ∈ getValidIntegers n b x y →
        validBoard n (setCell b x y v)) ∧
      validBoard n (setCell b x y 0) ∧
      setCell (setCell b x y 0) x y (cell b x y) = b :=
  ⟨fun _ hmem => setCandidate_valid hd hx hy hmem hv,
   clear_valid hd hx hy hv, setCell_restore b x y⟩

theorem engine_write_preserves_validity_witness :
    (dims 4 twoSolutionBoard4 ∧ 0 < 4 ∧ 0 < 4 ∧
        validBoard 4 twoSolutionBoard4) ∧
      ((cell twoSolutionBoard4 0 0 = 0 →
          1 ∈ getValidIntegers 4 twoSolutionBoard4 0 0 →
          validBoard 4 (setCell twoSolutionBoard4 0 0 1)) ∧
        validBoard 4 (setCell twoSolutionBoard4 0 0 0) ∧
        setCell (setCell twoSolutionBoard4 0 0 0) 0 0
          (cell twoSolutionBoard4 0 0) = twoSolutionBoard4) :=
  ⟨⟨by decide, by decide, by decide, by decide⟩,
    engine_write_preserves_validity 4 twoSolutionBoard4 0 0 1
      (by decide) (by decide) (by decide) (by decide)⟩

/-- C9 (code bug): `generateBoard` (the generation entry point) performs no
validation of the board order whatsoever — the order is the compile-time
constant `SIZE` — and returns success (1) unconditionally for every order
`n`, including non-perfect-square or unsupported ones such as 8; it even
discards `randomFillBoard`'s failure signal, making the caller's error
check in `main` unreachable.  No configuration error distinguishable from a
generation failure is ever reported. -/
theorem generateBoard_always_reports_success (n : Nat) (rs : List Nat) :
    (generateBoard n rs).1 = 1 :=
  rfl

/-- C10 counterexample: with array `[10, 20]`, `listSize = 1` (so
`1 ≤ listSize ≤ 2`, the array length), the claim "every array index read or
written during the shuffle lies within `[0, listSize - 1]`" is false: the
shift loop's final iteration reads index `1 = listSize`. -/
theorem shuffleValues_access_cex :
    ¬((∀ i ∈ shuffleReads [10, 20] 1 [0], i ≤ 1 - 1) ∧
      (∀ i ∈ shuffleWrites [10, 20] 1 [0], i ≤ 1 - 1)) := by
  decide

/-- C10 (amended): for every call with `1 ≤ listSize ≤` the array length,
every array index written lies within `[0, listSize - 1]`, and every index
read lies within `[0, listSize]` — the shift loop's final iteration of the
first pass reads the element at index `listSize` (one past the active
region; its value is overwritten before the call returns). -/
theorem shuffleValues_access_bounds (l : List Nat) (listSize : Nat)
    (rs : List Nat) (h1 : 1 ≤ listSize) (h2 : listSize ≤ l.length) :
    (∀ i ∈ shuffleWrites l listSize rs, i ≤ listSize - 1) ∧
      (∀ i ∈ shuffleReads l listSize rs, i ≤ listSize) := by
  obtain ⟨hr, hw⟩ := shuffleRun_access_bounds listSize l rs
  refine ⟨fun i hi => ?_, fun i hi => hr i hi⟩
  have := hw i hi
  omega

theorem shuffleValues_access_bounds_witness :
    (1 ≤ 1 ∧ 1 ≤ ([10, 20] : List Nat).length) ∧
      ((∀ i ∈ shuffleWrites [10, 20] 1 [0], i ≤ 1 - 1) ∧
        (∀ i ∈ shuffleReads [10, 20] 1 [0], i ≤ 1)) :=
  ⟨⟨by decide, by decide⟩,
    shuffleValues_access_bounds [10, 20] 1 [0] (by decide) (by decide)⟩

end Sudoku
